import Mathlib

/-!
Shallow embedding of `src/str.h` (a growable C string buffer) and proofs
about it.  Bytes are modelled as `Nat`; the buffer `data` is a `List Nat`
of exactly `capacity` entries; `size_t` arithmetic is modelled as `Nat`
with explicit `% 2^64` where the C code can wrap.  C-string arguments
(`const char*`) are given as the list of their bytes before the
terminator, hence NUL-free lists.  Memory returned by `malloc`/`realloc`
is modelled as zero bytes; the code never reads a byte it has not
written before exposing it, except where a theorem says otherwise.
Allocation success is an oracle `alloc : Nat → Bool` consulted with the
rounded capacity that `realloc` is asked for.
-/

/-- 2^64, the modulus of `size_t` arithmetic. -/
def W64 : Nat := 2 ^ 64

/-- `size_t` subtraction (wraps modulo 2^64). -/
def szSub (a b : Nat) : Nat := (a % W64 + (W64 - b % W64)) % W64

/-- `size_t` addition (wraps modulo 2^64). -/
def szAdd (a b : Nat) : Nat := (a + b) % W64

/-- `size_t` multiplication (wraps modulo 2^64). -/
def szMul (a b : Nat) : Nat := (a * b) % W64

/-- `isspace` from `<ctype.h>` in the C locale: space and the five control
whitespace bytes 9..13. -/
def isspaceB (c : Nat) : Bool := c == 32 || (9 ≤ c && c ≤ 13)

/-- `isupper` from `<ctype.h>` (ASCII). -/
def isupperB (c : Nat) : Bool := 65 ≤ c && c ≤ 90

/-- `islower` from `<ctype.h>` (ASCII). -/
def islowerB (c : Nat) : Bool := 97 ≤ c && c ≤ 122

/-- `tolower` from `<ctype.h>` (ASCII). -/
def tolowerB (c : Nat) : Nat := if isupperB c then c + 32 else c

/-- `toupper` from `<ctype.h>` (ASCII). -/
def toupperB (c : Nat) : Nat := if islowerB c then c - 32 else c

/-- The `str` struct of `str.h`: a length, a capacity and `capacity`
bytes of storage (the flexible array member). -/
structure Str where
  length : Nat
  capacity : Nat
  data : List Nat
deriving DecidableEq, Repr

/-- Read the byte at index `i` (reads past the end of the modelled
region yield 0). -/
def byteAt (d : List Nat) (i : Nat) : Nat := d.getD i 0

/-- Write the bytes of `src` into `d` starting at index `i`
(`memcpy`/`memmove` with the source captured first, hence overlap-safe). -/
def writeBytes : List Nat → Nat → List Nat → List Nat
  | d, _, [] => d
  | d, i, b :: bs => writeBytes (d.set i b) (i + 1) bs

/-- The `n` bytes of `d` starting at index `i`. -/
def extractBytes (d : List Nat) (i n : Nat) : List Nat := (d.drop i).take n

/-- The C string stored in `d`: its bytes up to the first zero byte. -/
def cstr (d : List Nat) : List Nat := d.takeWhile (fun b => b != 0)

/-- `STR_MIN_CAPACITY` from `str.h`. -/
def STR_MIN_CAPACITY : Nat := 16

/-- `STR_NPOS` from `str.h`. -/
def STR_NPOS : Int := -1

/-- The doubling loop of `str_round_capacity`:
`while (result < capacity) result *= 2`. -/
def roundLoop (capacity result : Nat) (h : 0 < result) : Nat :=
  if hlt : result < capacity then roundLoop capacity (result * 2) (by omega) else result
termination_by capacity - result
decreasing_by omega

/-- `str_round_capacity` from `str.h`. -/
def str_round_capacity (capacity : Nat) : Nat :=
  roundLoop capacity STR_MIN_CAPACITY (by decide)

/-- `str_new` from `str.h` (the successful allocation; malloc junk is
modelled as zero bytes, and the code writes `data[0] = 0`). -/
def str_new (capacity : Nat) : Str :=
  let cap := str_round_capacity (max capacity 1)
  { length := 0, capacity := cap, data := (List.replicate cap 0).set 0 0 }

/-- `str_from` from `str.h`: `str_new (len+1)` then `memcpy` of the
bytes and their terminator. -/
def str_from (cs : List Nat) : Str :=
  let len := cs.length
  let s := str_new (len + 1)
  { s with data := writeBytes s.data 0 (cs ++ [0]), length := len }

/-- `str_ensure_capacity` from `str.h`.  `none` models returning
`false` with `*s` left untouched; `realloc` keeps the old bytes and the
fresh region is modelled as zero bytes. -/
def str_ensure_capacity (alloc : Nat → Bool) (s : Str) (capacity : Nat) : Option Str :=
  if capacity ≤ s.capacity then some s
  else
    let cap := str_round_capacity capacity
    if alloc cap then
      some { s with capacity := cap,
                    data := s.data ++ List.replicate (cap - s.data.length) 0 }
    else none

/-- `str_append` from `str.h`.  The `Bool` is the C return value; on
`false` the returned buffer is the untouched input. -/
def str_append (alloc : Nat → Bool) (s : Str) (app : List Nat) : Bool × Str :=
  match str_ensure_capacity alloc s (s.length + app.length + 1) with
  | none => (false, s)
  | some t =>
      (true, { t with data := writeBytes t.data t.length (app ++ [0]),
                      length := t.length + app.length })

/-- `str_append_char` from `str.h`. -/
def str_append_char (alloc : Nat → Bool) (s : Str) (c : Nat) : Bool × Str :=
  match str_ensure_capacity alloc s (s.length + 2) with
  | none => (false, s)
  | some t =>
      (true, { t with data := (t.data.set t.length c).set (t.length + 1) 0,
                      length := t.length + 1 })

/-- `str_prepend` from `str.h`: `memmove` of the old content and
terminator to index `len(text)`, then `memcpy` of `text` at 0. -/
def str_prepend (alloc : Nat → Bool) (s : Str) (txt : List Nat) : Bool × Str :=
  match str_ensure_capacity alloc s (s.length + txt.length + 1) with
  | none => (false, s)
  | some t =>
      let moved := writeBytes t.data txt.length (extractBytes t.data 0 (t.length + 1))
      (true, { t with data := writeBytes moved 0 txt,
                      length := t.length + txt.length })

/-- `str_insert` from `str.h`. -/
def str_insert (alloc : Nat → Bool) (s : Str) (index : Nat) (txt : List Nat) : Bool × Str :=
  if s.length < index then (false, s)
  else
    match str_ensure_capacity alloc s (s.length + txt.length + 1) with
    | none => (false, s)
    | some t =>
        let moved := writeBytes t.data (index + txt.length)
          (extractBytes t.data index (t.length - index + 1))
        (true, { t with data := writeBytes moved index txt,
                        length := t.length + txt.length })

/-- `str_remove` from `str.h`. -/
def str_remove (s : Str) (index count : Nat) : Bool × Str :=
  if s.length ≤ index then (false, s)
  else
    let c := min count (s.length - index)
    let moved := writeBytes s.data index
      (extractBytes s.data (index + c) (s.length - index - c + 1))
    (true, { s with data := moved, length := s.length - c })

/-- `str_clear` from `str.h`. -/
def str_clear (s : Str) : Str :=
  { s with length := 0, data := s.data.set 0 0 }

/-- `str_resize` from `str.h`. -/
def str_resize (alloc : Nat → Bool) (s : Str) (new_length : Nat) : Bool × Str :=
  match str_ensure_capacity alloc s (new_length + 1) with
  | none => (false, s)
  | some t =>
      let filled := if t.length < new_length then
          writeBytes t.data t.length (List.replicate (new_length - t.length) 0)
        else t.data
      (true, { t with data := filled.set new_length 0, length := new_length })

/-- `str_at` from `str.h`. -/
def str_at (s : Str) (index : Nat) : Nat :=
  if index < s.length then byteAt s.data index else 0

/-- `strcmp` from `<string.h>` on modelled memory: bytes are compared up
to the first zero byte; running past the end of the modelled region
reads zero bytes. -/
def strcmpL : List Nat → List Nat → Int
  | [], [] => 0
  | [], y :: _ => if y = 0 then 0 else -1
  | x :: _, [] => if x = 0 then 0 else 1
  | x :: a, y :: b =>
      if x = 0 ∧ y = 0 then 0
      else if x = y then strcmpL a b
      else if x < y then -1 else 1

/-- `str_compare` from `str.h` (both arguments non-null). -/
def str_compare (s1 s2 : Str) : Int := strcmpL s1.data s2.data

/-- `str_equals` from `str.h`. -/
def str_equals (s1 s2 : Str) : Bool := str_compare s1 s2 == 0

/-- Offset of the first occurrence of `need` in the list `hay`
(the search core of `strstr`; the haystack passed in is the C string). -/
def strFindAux (need : List Nat) : List Nat → Option Nat
  | [] => if need.isPrefixOf ([] : List Nat) then some 0 else none
  | a :: t =>
      if need.isPrefixOf (a :: t) then some 0
      else (strFindAux need t).map (· + 1)

/-- `str_find` from `str.h`: `strstr` on the stored C string. -/
def str_find (s : Str) (substr : List Nat) : Int :=
  match strFindAux substr (cstr s.data) with
  | some i => (i : Int)
  | none => STR_NPOS

/-- The descending scan of `str_rfind`: at argument `i+1` it compares
`substr` against the raw bytes at offset `i`. -/
def rfindLoop (d substr : List Nat) : Nat → Int
  | 0 => STR_NPOS
  | i + 1 =>
      if extractBytes d i substr.length = substr then (i : Int)
      else rfindLoop d substr i

/-- `str_rfind` from `str.h`. -/
def str_rfind (s : Str) (substr : List Nat) : Int :=
  if substr = [] then STR_NPOS
  else if s.length < substr.length then STR_NPOS
  else rfindLoop s.data substr (s.length - substr.length + 1)

/-- The scan `while (start < len && isspace(data[start])) ++start`,
with the guard `start < len` carried by the first argument, which is
kept equal to `len - start`. -/
def scanWsGo (d : List Nat) : Nat → Nat → Nat
  | 0, start => start
  | n + 1, start =>
      if isspaceB (byteAt d start) then scanWsGo d n (start + 1) else start

def scanWs (d : List Nat) (len start : Nat) : Nat := scanWsGo d (len - start) start

/-- The scan `while (end > start && isspace(data[end])) --end` of
`str_trim` (at `e = 0` the guard `end > start` is false). -/
def scanWsRevFrom (d : List Nat) (start : Nat) : Nat → Nat
  | 0 => 0
  | e + 1 =>
      if start < e + 1 ∧ isspaceB (byteAt d (e + 1)) then scanWsRevFrom d start e
      else e + 1

/-- The scan `while (end > 0 && isspace(data[end])) --end` of
`str_rtrim`. -/
def scanWsRevZ (d : List Nat) : Nat → Nat
  | 0 => 0
  | e + 1 => if isspaceB (byteAt d (e + 1)) then scanWsRevZ d e else e + 1

/-- `str_trim` from `str.h` (the `end - start + 1` is `size_t`
arithmetic and wraps to 0 on an all-whitespace buffer). -/
def str_trim (s : Str) : Str :=
  if s.length = 0 then s
  else
    let start := scanWs s.data s.length 0
    let e := scanWsRevFrom s.data start (s.length - 1)
    let newLen := szAdd (szSub e start) 1
    let moved := writeBytes s.data 0 (extractBytes s.data start newLen)
    { s with data := moved.set newLen 0, length := newLen }

/-- `str_rtrim` from `str.h`. -/
def str_rtrim (s : Str) : Str :=
  if s.length = 0 then s
  else
    let e := scanWsRevZ s.data (s.length - 1)
    { s with length := e + 1, data := s.data.set (e + 1) 0 }

/-- `str_ltrim` from `str.h`. -/
def str_ltrim (s : Str) : Str :=
  if s.length = 0 then s
  else
    let start := scanWs s.data s.length 0
    let newLen := s.length - start
    let moved := writeBytes s.data 0 (extractBytes s.data start newLen)
    { s with data := moved.set newLen 0, length := newLen }

/-- `str_substr` from `str.h`. -/
def str_substr (s : Str) (start length : Nat) : Option Str :=
  if s.length ≤ start then none
  else
    let len := min length (s.length - start)
    let t := str_new (len + 1)
    some { t with data := (writeBytes t.data 0 (extractBytes s.data start len)).set len 0,
                  length := len }

/-- The occurrence-counting loop of `str_replace` and
`str_replace_all`: `while ((p = strstr(p, old))) { ++count; p += old_len; }`.
For an empty `old`, `strstr` returns `p` itself and the loop never
advances, so no amount of fuel finishes (`none` = the loop is still
running). -/
def countOccLoop (old : List Nat) : Nat → List Nat → Option Nat
  | 0, _ => none
  | fuel + 1, hay =>
      match strFindAux old hay with
      | some i => (countOccLoop old fuel (hay.drop (i + old.length))).map (· + 1)
      | none => some 0

/-- The emission loop of `str_replace` and `str_replace_all`:
`while (*p) { if (strncmp(p, old, old_len) == 0) … else *dest++ = *p++; }`
acting on the raw suffix of the buffer.  For an empty `old` the
`strncmp` always matches and `p` never advances. -/
def replaceEmitLoop (old new : List Nat) : Nat → List Nat → Option (List Nat)
  | 0, _ => none
  | fuel + 1, rest =>
      if byteAt rest 0 = 0 then some []
      else if old.isPrefixOf rest then
        (replaceEmitLoop old new fuel (rest.drop old.length)).map (fun t => new ++ t)
      else
        (replaceEmitLoop old new fuel rest.tail).map (fun t => byteAt rest 0 :: t)

/-- `str_replace` from `str.h` (allocation succeeding; `none` models a
call that has not returned because one of its loops does not advance). -/
def str_replace (s : Str) (old new : List Nat) : Option Str :=
  match countOccLoop old (s.data.length + 1) (cstr s.data) with
  | none => none
  | some count =>
      let result_len := szAdd s.length (szMul count (szSub new.length old.length))
      match replaceEmitLoop old new (s.data.length + 1) s.data with
      | none => none
      | some emitted =>
          let t := str_new (result_len + 1)
          some { t with data := (writeBytes t.data 0 emitted).set emitted.length 0,
                        length := result_len }

/-- `str_replace_all` from `str.h`: its body is byte-for-byte the body
of `str_replace`. -/
def str_replace_all (s : Str) (old new : List Nat) : Option Str :=
  match countOccLoop old (s.data.length + 1) (cstr s.data) with
  | none => none
  | some count =>
      let result_len := szAdd s.length (szMul count (szSub new.length old.length))
      match replaceEmitLoop old new (s.data.length + 1) s.data with
      | none => none
      | some emitted =>
          let t := str_new (result_len + 1)
          some { t with data := (writeBytes t.data 0 emitted).set emitted.length 0,
                        length := result_len }

/-- Build one buffer from extracted content the way `str_split` does:
`str_new (len+1)`, `memcpy`, `data[len] = 0`, `length = len`. -/
def mkSeg (content : List Nat) : Str :=
  let t := str_new (content.length + 1)
  { t with data := (writeBytes t.data 0 content).set content.length 0,
           length := content.length }

/-- The splitting loop of `str_split`: `rest` is the raw buffer suffix
at the current position, `restLen` the number of content bytes left
(`s->length` minus the position).  `strstr` searches the C string at
the position. -/
def splitLoop (delim : List Nat) : Nat → List Nat → Nat → Option (List (List Nat))
  | 0, _, _ => none
  | fuel + 1, rest, restLen =>
      match strFindAux delim (cstr rest) with
      | some i =>
          (splitLoop delim fuel (rest.drop (i + delim.length))
              (restLen - (i + delim.length))).map (fun segs => rest.take i :: segs)
      | none => some [rest.take restLen]

/-- `str_split` from `str.h` (allocation succeeding; the returned list
stands for the returned array together with `*count`). -/
def str_split (s : Str) (delim : List Nat) : Option (List Str) :=
  match splitLoop delim (s.data.length + 1) s.data s.length with
  | none => none
  | some segs => some (segs.map mkSeg)

/-- The concatenation `str_join` emits: the pieces joined with `delim`
between consecutive pieces. -/
def joinWith (delim : List Nat) : List (List Nat) → List Nat
  | [] => []
  | [a] => a
  | a :: b :: rest => a ++ delim ++ joinWith delim (b :: rest)

/-- `str_join` from `str.h` (allocation succeeding; a null element
cannot occur in the model, so only `count == 0` yields `none`). -/
def str_join (strings : List Str) (delim : List Nat) : Option Str :=
  if strings.length = 0 then none
  else
    let total_len := (strings.map Str.length).sum + (strings.length - 1) * delim.length
    let content := joinWith delim (strings.map (fun t => t.data.take t.length))
    let t := str_new (total_len + 1)
    some { t with data := (writeBytes t.data 0 content).set content.length 0,
                  length := total_len }

/-- `str_reverse` from `str.h`: a raw `malloc (sizeof(str) + length + 1)`
with `capacity = length + 1`, bypassing `str_new`. -/
def str_reverse (s : Str) : Option Str :=
  if s.length = 0 then none
  else
    some { length := s.length, capacity := s.length + 1,
           data := (s.data.take s.length).reverse ++ [0] }

/-- The two-pointer swap loop of `str_reverse_in_place`; the fuel (first
argument) only bounds the iterations, which consume `j - i` twice per
step, so any fuel at least `j - i` gives the loop's exact result. -/
def revLoop : Nat → List Nat → Nat → Nat → List Nat
  | 0, d, _, _ => d
  | f + 1, d, i, j =>
      if i < j then revLoop f ((d.set i (byteAt d j)).set j (byteAt d i)) (i + 1) (j - 1)
      else d

/-- `str_reverse_in_place` from `str.h`. -/
def str_reverse_in_place (s : Str) : Str :=
  if s.length < 2 then s
  else { s with data := revLoop s.length s.data 0 (s.length - 1) }

/-- The per-byte loop of `str_to_lower` / `str_to_upper`:
`for (i = 0; i < len; ++i) data[i] = f(data[i])`, the guard `i < len`
carried by the fuel, kept equal to `len - i`. -/
def caseMapGo (f : Nat → Nat) : Nat → List Nat → Nat → List Nat
  | 0, d, _ => d
  | n + 1, d, i => caseMapGo f n (d.set i (f (byteAt d i))) (i + 1)

/-- `str_to_lower` from `str.h`. -/
def str_to_lower (s : Str) : Str :=
  { s with data := caseMapGo tolowerB s.length s.data 0 }

/-- `str_to_upper` from `str.h`. -/
def str_to_upper (s : Str) : Str :=
  { s with data := caseMapGo toupperB s.length s.data 0 }

/-- `str_ensure_capacity` never changes the length. -/
theorem str_ensure_capacity_length (alloc : Nat → Bool) (s : Str) (capn : Nat) (t : Str)
    (h : str_ensure_capacity alloc s capn = some t) : t.length = s.length := by
  unfold str_ensure_capacity at h
  split at h
  · injection h with h
    rw [← h]
  · dsimp only at h
    split at h
    · injection h with h
      rw [← h]
    · exact absurd h (by simp)

/-- `str_insert` grows the length by at most the inserted text. -/
theorem str_insert_length_le (alloc : Nat → Bool) (s : Str) (index : Nat) (txt : List Nat) :
    (str_insert alloc s index txt).2.length ≤ s.length + txt.length := by
  unfold str_insert
  split
  · simp
  · cases hE : str_ensure_capacity alloc s (s.length + txt.length + 1) with
    | none => simp
    | some t =>
        have := str_ensure_capacity_length alloc s (s.length + txt.length + 1) t hE
        simp
        omega

/-- The scan loop of `str_snake_case`; the result of the inner
`str_insert` is ignored exactly as in the C code.  The fuel only bounds
the iterations: each one lowers `s.length - i` by at least 1 (a
successful insert grows the length by 1 but advances `i` by 2), so any
fuel at least `s.length - i` gives the loop's exact result. -/
def snakeGo (alloc : Nat → Bool) : Nat → Str → Nat → Str
  | 0, s, _ => s
  | f + 1, s, i =>
      if i < s.length then
        if isupperB (byteAt s.data i) then
          let s1 := { s with data := s.data.set i (tolowerB (byteAt s.data i)) }
          if 0 < i then snakeGo alloc f (str_insert alloc s1 i [95]).2 (i + 2)
          else snakeGo alloc f s1 (i + 1)
        else snakeGo alloc f s (i + 1)
      else s

/-- `str_snake_case` from `str.h`. -/
def str_snake_case (alloc : Nat → Bool) (s : Str) : Str := snakeGo alloc s.length s 0

/-- The rewrite loop of `str_camel_case`, the guard `read < len`
carried by the fuel, kept equal to `len - read`. -/
def camelGo : Nat → List Nat → Nat → Nat → Bool → List Nat × Nat
  | 0, d, _, write, _ => (d, write)
  | n + 1, d, read, write, capNext =>
      let c := byteAt d read
      if c = 32 ∨ c = 95 then camelGo n d (read + 1) write true
      else if capNext then camelGo n (d.set write (toupperB c)) (read + 1) (write + 1) false
      else camelGo n (d.set write (tolowerB c)) (read + 1) (write + 1) false

/-- `str_camel_case` from `str.h`. -/
def str_camel_case (s : Str) : Str :=
  if s.length = 0 then s
  else
    let d0 := s.data.set 0 (tolowerB (byteAt s.data 0))
    let r := camelGo (s.length - 1) d0 1 1 false
    { s with data := r.1.set r.2 0, length := r.2 }

/-- The rewrite loop of `str_pascal_case`, the guard `read < len`
carried by the fuel, kept equal to `len - read`.  In the C loop `read`
has already been incremented when `s->data[read]` is consulted, so here
the look-ahead is `read + 1`. -/
def pascalGo (len : Nat) : Nat → List Nat → Nat → Nat → Bool → List Nat × Nat
  | 0, d, _, write, _ => (d, write)
  | n + 1, d, read, write, newWord =>
      let c := byteAt d read
      if c = 32 ∨ c = 95 then pascalGo len n d (read + 1) write true
      else if newWord then pascalGo len n (d.set write (toupperB c)) (read + 1) (write + 1) false
      else if isupperB c && decide (read + 1 < len) && islowerB (byteAt d (read + 1)) then
        pascalGo len n (d.set write c) (read + 1) (write + 1) false
      else pascalGo len n (d.set write (tolowerB c)) (read + 1) (write + 1) false

/-- `str_pascal_case` from `str.h`. -/
def str_pascal_case (s : Str) : Str :=
  if s.length = 0 then s
  else
    let r := pascalGo s.length s.length s.data 0 0 true
    { s with data := r.1.set r.2 0, length := r.2 }

/-- The removal loop of `str_remove_all`: `p` (as offset `pos`) is not
advanced past a removed occurrence, the buffer shrinks instead.  For an
empty `substr` the occurrence is found at `pos` itself, the `memmove`
copies the buffer onto itself and nothing changes, so the loop never
finishes. -/
def removeAllLoop (substr : List Nat) :
    Nat → List Nat → Nat → Nat → Nat → Option (List Nat × Nat × Nat)
  | 0, _, _, _, _ => none
  | fuel + 1, d, len, pos, count =>
      match strFindAux substr (cstr (d.drop pos)) with
      | none => some (d, len, count)
      | some i =>
          let q := pos + i
          let d2 := writeBytes d q (extractBytes d (q + substr.length)
            (len - q - substr.length + 1))
          removeAllLoop substr fuel d2 (len - substr.length) q (count + 1)

/-- `str_remove_all` from `str.h` (`none` models a call that has not
returned). -/
def str_remove_all (s : Str) (substr : List Nat) : Option (Nat × Str) :=
  match removeAllLoop substr (s.length + 1) s.data s.length 0 0 with
  | none => none
  | some (d, len, count) => some (count, { s with data := d, length := len })

/-- `str_append_fmt` from `str.h`, with `vsnprintf` abstracted:
`size` is the dry-run return value, `written` the return value of the
in-place pass and `out` the bytes that pass would produce in full.  On
a negative `written` the buffer bytes are unspecified in C and modelled
as unchanged. -/
def str_append_fmt (alloc : Nat → Bool) (s : Str) (size written : Int)
    (out : List Nat) : Bool × Str :=
  if size < 0 then (false, s)
  else
    let sz := size.toNat
    match str_ensure_capacity alloc s (s.length + sz + 1) with
    | none => (false, s)
    | some t =>
        let d := if written < 0 then t.data
          else writeBytes t.data t.length (out.take sz ++ [0])
        if written < 0 ∨ size ≤ written then
          (true, { t with length := t.length + sz, data := d.set (t.length + sz) 0 })
        else
          (true, { t with length := t.length + written.toNat, data := d })

/-- `str_format` from `str.h`, with `vsnprintf` abstracted as in
`str_append_fmt`: `size` is the dry-run return value, `written` the
return value of the in-place pass and `out` the bytes that pass would
produce in full.  The in-place pass is bounded by the new buffer's
capacity, so it stores at most `capacity - 1` payload bytes plus the
terminator; on a formatting error or truncation (`written < 0` or
`written >= capacity`) the length is clamped to `capacity - 1` and the
buffer re-terminated there, exactly as in the C. -/
def str_format (size written : Int) (out : List Nat) : Option Str :=
  if size < 0 then none
  else
    let t := str_new (size.toNat + 1)
    let d := if written < 0 then t.data
      else writeBytes t.data 0 (out.take (t.capacity - 1) ++ [0])
    if written < 0 ∨ (t.capacity : Int) ≤ written then
      some { t with length := t.capacity - 1, data := d.set (t.capacity - 1) 0 }
    else
      some { t with length := written.toNat, data := d }

/-- The content of a buffer: its first `length` bytes. -/
def content (s : Str) : List Nat := s.data.take s.length

/-- Well-formedness of a buffer (§3 of the spec): the storage really
has `capacity` bytes, the length leaves room for the terminator, and
the byte at index `length` is the terminator. -/
def Wf (s : Str) : Prop :=
  s.data.length = s.capacity ∧ s.length < s.capacity ∧ byteAt s.data s.length = 0

instance (s : Str) : Decidable (Wf s) := by unfold Wf; infer_instance

/-- Being a power of two. -/
def isPow2 (n : Nat) : Prop := ∃ k, n = 2 ^ k

/-- The §3 capacity invariant: a power of two, at least 16, strictly
above the length. -/
def CapInv (s : Str) : Prop :=
  isPow2 s.capacity ∧ 16 ≤ s.capacity ∧ s.length < s.capacity

theorem roundLoop_ge_start (cap result : Nat) (h : 0 < result) :
    result ≤ roundLoop cap result h := by
  rw [roundLoop]
  split
  · have ih := roundLoop_ge_start cap (result * 2) (by omega)
    omega
  · omega
termination_by cap - result
decreasing_by omega

theorem roundLoop_ge_cap (cap result : Nat) (h : 0 < result) :
    cap ≤ roundLoop cap result h := by
  rw [roundLoop]
  split
  · exact roundLoop_ge_cap cap (result * 2) (by omega)
  · omega
termination_by cap - result
decreasing_by omega

theorem roundLoop_pow2 (cap result : Nat) (h : 0 < result) (hp : isPow2 result) :
    isPow2 (roundLoop cap result h) := by
  rw [roundLoop]
  split
  · refine roundLoop_pow2 cap (result * 2) (by omega) ?_
    obtain ⟨k, hk⟩ := hp
    exact ⟨k + 1, by rw [hk]; ring⟩
  · exact hp
termination_by cap - result
decreasing_by omega

theorem str_round_capacity_min (c : Nat) : 16 ≤ str_round_capacity c :=
  roundLoop_ge_start c STR_MIN_CAPACITY (by decide)

theorem str_round_capacity_ge (c : Nat) : c ≤ str_round_capacity c :=
  roundLoop_ge_cap c STR_MIN_CAPACITY (by decide)

theorem str_round_capacity_pow2 (c : Nat) : isPow2 (str_round_capacity c) :=
  roundLoop_pow2 c STR_MIN_CAPACITY (by decide) ⟨4, rfl⟩

theorem byteAt_set (d : List Nat) (i j v : Nat) :
    byteAt (d.set i v) j = if i = j ∧ j < d.length then v else byteAt d j := by
  induction d generalizing i j with
  | nil => simp [byteAt]
  | cons a t ih =>
      cases i with
      | zero =>
          cases j with
          | zero => simp [byteAt]
          | succ j => simp [byteAt, List.getD]
      | succ i =>
          cases j with
          | zero => simp [byteAt, List.getD]
          | succ j =>
              simp only [List.set_cons_succ, byteAt, List.getD_cons_succ, List.length_cons]
              rw [← byteAt, ← byteAt, ih]
              by_cases h1 : i = j ∧ j < t.length
              · rw [if_pos h1, if_pos (by omega)]
              · rw [if_neg h1, if_neg (by omega)]

theorem writeBytes_length (src : List Nat) (d : List Nat) (i : Nat) :
    (writeBytes d i src).length = d.length := by
  induction src generalizing d i with
  | nil => rfl
  | cons b bs ih => simp [writeBytes, ih]

theorem set_eq_take_cons_drop (d : List Nat) (i v : Nat) (h : i < d.length) :
    d.set i v = d.take i ++ v :: d.drop (i + 1) := by
  induction d generalizing i with
  | nil => simp at h
  | cons a t ih =>
      cases i with
      | zero => simp
      | succ i =>
          simp only [List.set_cons_succ, List.take_succ_cons, List.drop_succ_cons,
            List.cons_append]
          rw [ih]
          simpa using h

theorem writeBytes_byteAt_ge (src : List Nat) (d : List Nat) (i j : Nat)
    (h : i + src.length ≤ j) : byteAt (writeBytes d i src) j = byteAt d j := by
  induction src generalizing d i with
  | nil => rfl
  | cons b bs ih =>
      rw [writeBytes, ih (d.set i b) (i + 1) (by simp at h; omega), byteAt_set]
      rw [if_neg (by simp at h; omega)]

theorem writeBytes_eq (src : List Nat) (d : List Nat) (i : Nat)
    (h : i + src.length ≤ d.length) :
    writeBytes d i src = d.take i ++ src ++ d.drop (i + src.length) := by
  induction src generalizing d i with
  | nil => simp [writeBytes]
  | cons b bs ih =>
      have hi : i < d.length := by simp at h; omega
      have hlen : (d.take i).length = i := by simp; omega
      rw [writeBytes, ih (d.set i b) (i + 1) (by simp at h ⊢; omega)]
      rw [set_eq_take_cons_drop d i b hi]
      have h1 : (d.take i ++ b :: d.drop (i + 1)).take (i + 1) = d.take i ++ [b] := by
        rw [show i + 1 = (d.take i).length + 1 by omega, List.take_append]
        rfl
      have h2 : (d.take i ++ b :: d.drop (i + 1)).drop (i + 1 + bs.length)
          = d.drop (i + 1 + bs.length) := by
        rw [show i + 1 + bs.length = (d.take i).length + (1 + bs.length) by omega,
          List.drop_append]
        rw [show 1 + bs.length = bs.length + 1 by omega, List.drop_succ_cons,
          List.drop_drop]
        congr 1
        omega
      rw [h1, h2]
      have h3 : i + (b :: bs).length = i + 1 + bs.length := by simp; omega
      rw [h3]
      simp

theorem str_ensure_capacity_post (alloc : Nat → Bool) (s : Str) (c : Nat) (t : Str)
    (h : str_ensure_capacity alloc s c = some t) :
    t.length = s.length ∧ c ≤ t.capacity ∧ s.capacity ≤ t.capacity ∧
    (t.capacity = s.capacity ∨ t.capacity = str_round_capacity c) ∧
    t.data.take s.data.length = s.data ∧
    (s.data.length = s.capacity → t.data.length = t.capacity) := by
  unfold str_ensure_capacity at h
  split at h
  · injection h with h
    rw [← h]
    refine ⟨rfl, by omega, le_refl _, Or.inl rfl, List.take_length _, fun hl => hl⟩
  · dsimp only at h
    split at h
    · injection h with h
      rw [← h]
      have hge := str_round_capacity_ge c
      refine ⟨rfl, by simp; omega, by simp; omega, Or.inr rfl, ?_, ?_⟩
      · simp [List.take_append_eq_append_take]
      · intro hl
        simp [hl]
        omega
    · exact absurd h (by simp)

theorem str_new_capacity (c : Nat) :
    (str_new c).capacity = str_round_capacity (max c 1) := rfl

theorem str_new_length (c : Nat) : (str_new c).length = 0 := rfl

theorem str_new_data (c : Nat) :
    (str_new c).data = List.replicate (str_round_capacity (max c 1)) 0 := by
  show (List.replicate (str_round_capacity (max c 1)) 0).set 0 0
      = List.replicate (str_round_capacity (max c 1)) 0
  cases hc : str_round_capacity (max c 1) with
  | zero => rfl
  | succ n => simp [List.replicate_succ]

theorem str_new_CapInv (c : Nat) : CapInv (str_new c) := by
  refine ⟨str_round_capacity_pow2 _, str_round_capacity_min _, ?_⟩
  have := str_round_capacity_min (max c 1)
  show 0 < str_round_capacity (max c 1)
  omega

theorem str_new_Wf (c : Nat) : Wf (str_new c) := by
  have hmin := str_round_capacity_min (max c 1)
  refine ⟨by rw [str_new_data]; simp [str_new_capacity], ?_, ?_⟩
  · show 0 < (str_new c).capacity
    rw [str_new_capacity]; omega
  · rw [str_new_data]
    show byteAt (List.replicate (str_round_capacity (max c 1)) 0) 0 = 0
    unfold byteAt
    rcases Nat.lt_or_ge 0 (str_round_capacity (max c 1)) with hlt | hge
    · rw [List.getD_eq_getElem _ _ (by simpa using hlt)]
      simp
    · omega

theorem set_append_right_aux (l r : List Nat) (k v : Nat) :
    (l ++ r).set (l.length + k) v = l ++ r.set k v := by
  induction l with
  | nil => simp
  | cons a t ih =>
      simp only [List.cons_append, List.length_cons]
      rw [show t.length + 1 + k = (t.length + k) + 1 by omega]
      simp [ih]

theorem set_replicate_zero (m : Nat) :
    (List.replicate m (0 : Nat)).set 0 0 = List.replicate m 0 := by
  cases m with
  | zero => rfl
  | succ n => simp [List.replicate_succ]

theorem mkSeg_fields (c : List Nat) :
    (mkSeg c).length = c.length ∧
    (mkSeg c).capacity = str_round_capacity (c.length + 1) ∧
    (mkSeg c).data = c ++ List.replicate (str_round_capacity (c.length + 1) - c.length) 0 := by
  have hcap : str_round_capacity (max (c.length + 1) 1) = str_round_capacity (c.length + 1) := by
    congr 1
    omega
  have hge := str_round_capacity_ge (c.length + 1)
  refine ⟨rfl, hcap, ?_⟩
  show ((writeBytes (str_new (c.length + 1)).data 0 c).set c.length 0)
      = c ++ List.replicate (str_round_capacity (c.length + 1) - c.length) 0
  rw [str_new_data, hcap]
  rw [writeBytes_eq c _ 0 (by simp; omega)]
  simp only [List.take_zero, List.nil_append, Nat.zero_add, List.drop_replicate]
  have h4 := set_append_right_aux c
    (List.replicate (str_round_capacity (c.length + 1) - c.length) 0) 0 0
  simp only [Nat.add_zero] at h4
  rw [h4, set_replicate_zero]

theorem mkSeg_CapInv (c : List Nat) : CapInv (mkSeg c) := by
  obtain ⟨hl, hc, _⟩ := mkSeg_fields c
  have hge := str_round_capacity_ge (c.length + 1)
  refine ⟨?_, ?_, ?_⟩
  · rw [hc]; exact str_round_capacity_pow2 _
  · rw [hc]; exact str_round_capacity_min _
  · rw [hl, hc]; omega

theorem mkSeg_Wf (c : List Nat) : Wf (mkSeg c) := by
  obtain ⟨hl, hc, hd⟩ := mkSeg_fields c
  have hge := str_round_capacity_ge (c.length + 1)
  refine ⟨?_, ?_, ?_⟩
  · rw [hd, hc]; simp; omega
  · rw [hl, hc]; omega
  · rw [hd, hl]
    unfold byteAt
    rw [List.getD_eq_getElem _ _ (by simp; omega)]
    rw [List.getElem_append_right (by omega)]
    simp [List.getElem_replicate]

theorem mkSeg_content (c : List Nat) : content (mkSeg c) = c := by
  obtain ⟨hl, _, hd⟩ := mkSeg_fields c
  unfold content
  rw [hd, hl, List.take_append_of_le_length (le_refl _), List.take_length]

theorem str_from_fields (cs : List Nat) :
    (str_from cs).length = cs.length ∧
    (str_from cs).capacity = str_round_capacity (cs.length + 1) ∧
    (str_from cs).data = (cs ++ [0]) ++
      List.replicate (str_round_capacity (cs.length + 1) - (cs.length + 1)) 0 := by
  have hcap : str_round_capacity (max (cs.length + 1) 1) = str_round_capacity (cs.length + 1) := by
    congr 1
    omega
  have hge := str_round_capacity_ge (cs.length + 1)
  refine ⟨rfl, hcap, ?_⟩
  show writeBytes (str_new (cs.length + 1)).data 0 (cs ++ [0]) = _
  rw [str_new_data, hcap]
  rw [writeBytes_eq _ _ 0 (by simp; omega)]
  simp only [List.take_zero, List.nil_append, Nat.zero_add, List.drop_replicate]
  congr 2
  simp

theorem str_from_Wf (cs : List Nat) : Wf (str_from cs) := by
  obtain ⟨hl, hc, hd⟩ := str_from_fields cs
  have hge := str_round_capacity_ge (cs.length + 1)
  refine ⟨?_, ?_, ?_⟩
  · rw [hd, hc]; simp; omega
  · rw [hl, hc]; omega
  · rw [hd, hl]
    unfold byteAt
    rw [List.getD_append _ _ _ _ (by simp)]
    rw [List.getD_append_right _ _ _ _ (by simp)]
    simp

theorem str_from_content (cs : List Nat) : content (str_from cs) = cs := by
  obtain ⟨hl, _, hd⟩ := str_from_fields cs
  unfold content
  rw [hd, hl, List.append_assoc, List.take_append_of_le_length (le_refl _), List.take_length]

theorem str_from_CapInv (cs : List Nat) : CapInv (str_from cs) := by
  obtain ⟨hl, hc, _⟩ := str_from_fields cs
  have hge := str_round_capacity_ge (cs.length + 1)
  refine ⟨?_, ?_, ?_⟩
  · rw [hc]; exact str_round_capacity_pow2 _
  · rw [hc]; exact str_round_capacity_min _
  · rw [hl, hc]; omega

theorem strFindAux_nil_needle (hay : List Nat) : strFindAux [] hay = some 0 := by
  cases hay <;> simp [strFindAux, List.isPrefixOf]

theorem strcmpL_cstr (a : List Nat) : ∀ b, cstr a = cstr b → strcmpL a b = 0 := by
  induction a with
  | nil =>
      intro b h
      cases b with
      | nil => rfl
      | cons y t =>
          unfold cstr at h
          simp only [List.takeWhile_nil, List.takeWhile_cons] at h
          by_cases hy : y = 0
          · simp [strcmpL, hy]
          · rw [if_pos (by simpa using hy)] at h
            exact absurd h (by simp)
  | cons x a' ih =>
      intro b h
      cases b with
      | nil =>
          unfold cstr at h
          simp only [List.takeWhile_nil, List.takeWhile_cons] at h
          by_cases hx : x = 0
          · simp [strcmpL, hx]
          · rw [if_pos (by simpa using hx)] at h
            exact absurd h (by simp)
      | cons y b' =>
          unfold cstr at h
          simp only [List.takeWhile_cons] at h
          by_cases hx : x = 0 <;> by_cases hy : y = 0
          · simp [strcmpL, hx, hy]
          · rw [if_neg (by simpa using hx), if_pos (by simpa using hy)] at h
            exact absurd h.symm (by simp)
          · rw [if_pos (by simpa using hx), if_neg (by simpa using hy)] at h
            exact absurd h (by simp)
          · rw [if_pos (by simpa using hx), if_pos (by simpa using hy)] at h
            simp only [List.cons.injEq] at h
            obtain ⟨hxy, htail⟩ := h
            unfold strcmpL
            rw [if_neg (by omega), if_pos hxy]
            exact ih b' htail

/-- C9: for every buffer, `str_find` with the empty substring returns 0
(`strstr` of an empty needle returns the haystack itself), while
`str_rfind` with the empty substring returns the `STR_NPOS` sentinel −1
because of its explicit `!*substr` guard: the two search directions
disagree on the empty substring. -/
theorem C9_find_rfind_empty_substring (s : Str) :
    str_find s [] = 0 ∧ str_rfind s [] = STR_NPOS := by
  constructor
  · unfold str_find
    rw [strFindAux_nil_needle]
    rfl
  · unfold str_rfind
    rw [if_pos rfl]

/-- C10: `str_compare` and `str_equals` go through `strcmp` on the raw
storage, so they are determined by the bytes up to the first zero byte:
buffers whose data agree up to there compare equal (`0`, `true`) no
matter what their recorded lengths or later bytes are. -/
theorem C10_compare_equals_only_cstr (s1 s2 : Str)
    (h : cstr s1.data = cstr s2.data) :
    str_compare s1 s2 = 0 ∧ str_equals s1 s2 = true := by
  have hc : str_compare s1 s2 = 0 := strcmpL_cstr s1.data s2.data h
  refine ⟨hc, ?_⟩
  unfold str_equals
  rw [hc]
  rfl

/-- Witness for C10 at two concrete buffers that agree up to the first
zero byte but differ in length, capacity and the bytes after it. -/
theorem C10_witness :
    str_compare ⟨7, 16, [104, 105, 0, 1, 2, 3]⟩ ⟨2, 32, [104, 105, 0, 7, 7]⟩ = 0 ∧
    str_equals ⟨7, 16, [104, 105, 0, 1, 2, 3]⟩ ⟨2, 32, [104, 105, 0, 7, 7]⟩ = true :=
  C10_compare_equals_only_cstr ⟨7, 16, [104, 105, 0, 1, 2, 3]⟩ ⟨2, 32, [104, 105, 0, 7, 7]⟩
    (by decide)

theorem CapInv_after_ensure (alloc : Nat → Bool) (s : Str) (n : Nat) (t : Str)
    (hs : CapInv s) (hE : str_ensure_capacity alloc s (n + 1) = some t) :
    isPow2 t.capacity ∧ 16 ≤ t.capacity ∧ n < t.capacity ∧ t.length = s.length := by
  obtain ⟨hlen, hreq, -, hcap, -, -⟩ := str_ensure_capacity_post _ _ _ _ hE
  obtain ⟨hp, h16, -⟩ := hs
  rcases hcap with h | h
  · exact ⟨h ▸ hp, h ▸ h16, by omega, hlen⟩
  · exact ⟨h ▸ str_round_capacity_pow2 _, h ▸ str_round_capacity_min _, by omega, hlen⟩

theorem CapInv_newMod (len n : Nat) (d : List Nat) (h : len ≤ n) :
    CapInv { length := len, capacity := (str_new (n + 1)).capacity, data := d } := by
  have hcap : (str_new (n + 1)).capacity = str_round_capacity (n + 1) := by
    rw [str_new_capacity]
    congr 1
    omega
  have hge := str_round_capacity_ge (n + 1)
  refine ⟨?_, ?_, ?_⟩
  · show isPow2 (str_new (n + 1)).capacity
    rw [hcap]
    exact str_round_capacity_pow2 _
  · show 16 ≤ (str_new (n + 1)).capacity
    rw [hcap]
    exact str_round_capacity_min _
  · show len < (str_new (n + 1)).capacity
    rw [hcap]
    omega

theorem str_insert_CapInv (alloc : Nat → Bool) (s : Str) (i : Nat) (txt : List Nat)
    (hs : CapInv s) : CapInv (str_insert alloc s i txt).2 := by
  unfold str_insert
  split
  · exact hs
  · cases hE : str_ensure_capacity alloc s (s.length + txt.length + 1) with
    | none => exact hs
    | some t =>
        obtain ⟨hp, h16, hlt, hlen⟩ := CapInv_after_ensure alloc s (s.length + txt.length) t hs hE
        exact ⟨hp, h16, by simp; omega⟩

theorem snakeGo_CapInv (alloc : Nat → Bool) :
    ∀ fuel s i, CapInv s → CapInv (snakeGo alloc fuel s i) := by
  intro fuel
  induction fuel with
  | zero => intro s i hs; exact hs
  | succ f ih =>
      intro s i hs
      rw [snakeGo]
      split
      · split
        · split
          · exact ih _ _ (str_insert_CapInv alloc _ i [95] hs)
          · exact ih _ _ hs
        · exact ih _ _ hs
      · exact hs

/-- C1 (amended): every buffer produced by a successful construction,
growth or mutation has a capacity that is a power of two, at least 16
and strictly greater than its length — for every construction
(`str_new`, `str_from`, `str_format`), every growing or mutating
operation (`str_ensure_capacity`, `str_append`, `str_append_char`,
`str_append_fmt`, `str_prepend`, `str_insert`, `str_resize`,
`str_snake_case`), and every allocating derivation (`str_substr`,
`str_replace`, `str_replace_all`, `str_split`, `str_join`) — except
`str_reverse`: `str_reverse` bypasses `str_new` and gives its result
capacity exactly `length + 1` (still greater than the length, but in
general neither a power of two nor at least 16). -/
theorem C1_capacity_invariant_except_reverse :
    (∀ c, CapInv (str_new c)) ∧
    (∀ cs, CapInv (str_from cs)) ∧
    (∀ alloc s c t, CapInv s → str_ensure_capacity alloc s c = some t → CapInv t) ∧
    (∀ alloc s a, CapInv s → CapInv (str_append alloc s a).2) ∧
    (∀ alloc s c, CapInv s → CapInv (str_append_char alloc s c).2) ∧
    (∀ alloc s txt, CapInv s → CapInv (str_prepend alloc s txt).2) ∧
    (∀ alloc s i txt, CapInv s → CapInv (str_insert alloc s i txt).2) ∧
    (∀ alloc s n, CapInv s → CapInv (str_resize alloc s n).2) ∧
    (∀ s start n t, str_substr s start n = some t → CapInv t) ∧
    (∀ s old new t, str_replace s old new = some t → CapInv t) ∧
    (∀ s old new t, str_replace_all s old new = some t → CapInv t) ∧
    (∀ s d segs, str_split s d = some segs → ∀ t ∈ segs, CapInv t) ∧
    (∀ strs d t, str_join strs d = some t → CapInv t) ∧
    (∀ alloc s size written out, CapInv s →
      CapInv (str_append_fmt alloc s size written out).2) ∧
    (∀ alloc s, CapInv s → CapInv (str_snake_case alloc s)) ∧
    (∀ size written out t, str_format size written out = some t → CapInv t) ∧
    (∀ s t, str_reverse s = some t → t.capacity = t.length + 1 ∧ t.length = s.length) := by
  refine ⟨str_new_CapInv, str_from_CapInv, ?_, ?_, ?_, ?_, ?_, ?_, ?_, ?_, ?_, ?_, ?_, ?_,
    ?_, ?_, ?_⟩
  · intro alloc s c t hs hE
    obtain ⟨-, hreq, -, hcap, -, -⟩ := str_ensure_capacity_post _ _ _ _ hE
    obtain ⟨hp, h16, hlt⟩ := hs
    have hlen2 := str_ensure_capacity_length _ _ _ _ hE
    rcases hcap with h | h
    · exact ⟨h ▸ hp, h ▸ h16, by omega⟩
    · have h1 := str_round_capacity_pow2 c
      have h2 := str_round_capacity_min c
      obtain ⟨-, -, hsc, -, -, -⟩ := str_ensure_capacity_post _ _ _ _ hE
      exact ⟨h ▸ h1, h ▸ h2, by omega⟩
  · intro alloc s a hs
    unfold str_append
    cases hE : str_ensure_capacity alloc s (s.length + a.length + 1) with
    | none => exact hs
    | some t =>
        obtain ⟨hp, h16, hlt, hlen⟩ := CapInv_after_ensure alloc s (s.length + a.length) t hs hE
        exact ⟨hp, h16, by simp; omega⟩
  · intro alloc s c hs
    unfold str_append_char
    cases hE : str_ensure_capacity alloc s (s.length + 2) with
    | none => exact hs
    | some t =>
        obtain ⟨hp, h16, hlt, hlen⟩ := CapInv_after_ensure alloc s (s.length + 1) t hs hE
        exact ⟨hp, h16, by simp; omega⟩
  · intro alloc s txt hs
    unfold str_prepend
    cases hE : str_ensure_capacity alloc s (s.length + txt.length + 1) with
    | none => exact hs
    | some t =>
        obtain ⟨hp, h16, hlt, hlen⟩ := CapInv_after_ensure alloc s (s.length + txt.length) t hs hE
        exact ⟨hp, h16, by simp; omega⟩
  · intro alloc s i txt hs
    unfold str_insert
    split
    · exact hs
    · cases hE : str_ensure_capacity alloc s (s.length + txt.length + 1) with
      | none => exact hs
      | some t =>
          obtain ⟨hp, h16, hlt, hlen⟩ := CapInv_after_ensure alloc s (s.length + txt.length) t hs hE
          exact ⟨hp, h16, by simp; omega⟩
  · intro alloc s n hs
    unfold str_resize
    cases hE : str_ensure_capacity alloc s (n + 1) with
    | none => exact hs
    | some t =>
        obtain ⟨hp, h16, hlt, hlen⟩ := CapInv_after_ensure alloc s n t hs hE
        exact ⟨hp, h16, by simp; omega⟩
  · intro s start n t h
    unfold str_substr at h
    split at h
    · exact absurd h (by simp)
    · injection h with h
      rw [← h]
      exact CapInv_newMod _ _ _ (le_refl _)
  · intro s old new t h
    unfold str_replace at h
    split at h
    · exact absurd h (by simp)
    · split at h
      · exact absurd h (by simp)
      · injection h with h
        rw [← h]
        exact CapInv_newMod _ _ _ (le_refl _)
  · intro s old new t h
    unfold str_replace_all at h
    split at h
    · exact absurd h (by simp)
    · split at h
      · exact absurd h (by simp)
      · injection h with h
        rw [← h]
        exact CapInv_newMod _ _ _ (le_refl _)
  · intro s d segs h t ht
    unfold str_split at h
    split at h
    · exact absurd h (by simp)
    · injection h with h
      rw [← h] at ht
      obtain ⟨c, -, rfl⟩ := List.mem_map.mp ht
      exact mkSeg_CapInv c
  · intro strs d t h
    unfold str_join at h
    split at h
    · exact absurd h (by simp)
    · injection h with h
      rw [← h]
      exact CapInv_newMod _ _ _ (le_refl _)
  · intro alloc s size written out hs
    unfold str_append_fmt
    split
    · exact hs
    · dsimp only
      cases hE : str_ensure_capacity alloc s (s.length + size.toNat + 1) with
      | none => exact hs
      | some t =>
          obtain ⟨hp, h16, hlt, hlen⟩ :=
            CapInv_after_ensure alloc s (s.length + size.toNat) t hs hE
          dsimp only
          split
          · refine ⟨hp, h16, ?_⟩
            show t.length + size.toNat < t.capacity
            omega
          · rename_i hcond
            refine ⟨hp, h16, ?_⟩
            show t.length + written.toNat < t.capacity
            omega
  · intro alloc s hs
    exact snakeGo_CapInv alloc s.length s 0 hs
  · intro size written out t h
    unfold str_format at h
    split at h
    · exact absurd h (by simp)
    · dsimp only at h
      split at h
      · injection h with h
        rw [← h]
        obtain ⟨hp, h16, -⟩ := str_new_CapInv (size.toNat + 1)
        refine ⟨hp, h16, ?_⟩
        show (str_new (size.toNat + 1)).capacity - 1 < (str_new (size.toNat + 1)).capacity
        omega
      · rename_i hcond
        injection h with h
        rw [← h]
        obtain ⟨hp, h16, -⟩ := str_new_CapInv (size.toNat + 1)
        refine ⟨hp, h16, ?_⟩
        show written.toNat < (str_new (size.toNat + 1)).capacity
        omega
  · intro s t h
    unfold str_reverse at h
    split at h
    · exact absurd h (by simp)
    · injection h with h
      rw [← h]
      exact ⟨rfl, rfl⟩

/-- Counterexample to C1 as stated: reversing a well-formed 5-byte
buffer yields a buffer of capacity 6, which is below the minimum 16 (and
not a power of two), though the claim promises the invariant for the
buffer returned by `str_reverse`. -/
theorem C1_counterexample :
    Wf ⟨5, 16, [72, 101, 108, 108, 111, 0, 0, 0, 0, 0, 0, 0, 0, 0, 0, 0]⟩ ∧
    str_reverse ⟨5, 16, [72, 101, 108, 108, 111, 0, 0, 0, 0, 0, 0, 0, 0, 0, 0, 0]⟩ =
      some ⟨5, 6, [111, 108, 108, 101, 72, 0]⟩ ∧
    ¬ 16 ≤ (6 : Nat) ∧ ¬ isPow2 6 := by
  refine ⟨by decide, by decide, by decide, ?_⟩
  rintro ⟨k, hk⟩
  rcases k with _ | _ | _ | k
  · simp at hk
  · simp at hk
  · simp at hk
  · have h8 : 2 ^ 3 ≤ 2 ^ (k + 3) := Nat.pow_le_pow_right (by omega) (by omega)
    simp at h8
    omega

/-- Witness for C1: the growth conjunct applied to a concrete
well-formed buffer. -/
theorem C1_witness :
    CapInv (str_append (fun _ => true) ⟨2, 16, [104, 105, 0, 0, 0, 0, 0, 0, 0, 0, 0, 0, 0, 0, 0, 0]⟩
      [33, 33]).2 :=
  C1_capacity_invariant_except_reverse.2.2.2.1 (fun _ => true)
    ⟨2, 16, [104, 105, 0, 0, 0, 0, 0, 0, 0, 0, 0, 0, 0, 0, 0, 0]⟩ [33, 33]
    ⟨⟨4, rfl⟩, by decide, by decide⟩

theorem countOccLoop_empty_old_diverges (hay : List Nat) :
    ∀ fuel, countOccLoop [] fuel hay = none := by
  intro fuel
  induction fuel with
  | zero => rfl
  | succ f ih =>
      rw [countOccLoop, strFindAux_nil_needle]
      simp [ih]

theorem removeAllLoop_empty_substr_diverges :
    ∀ fuel count, removeAllLoop [] fuel [97, 0] 1 0 count = none := by
  have hstep : ∀ f count,
      removeAllLoop [] (f + 1) [97, 0] 1 0 count = removeAllLoop [] f [97, 0] 1 0 (count + 1) :=
    fun _ _ => rfl
  intro fuel
  induction fuel with
  | zero => intro count; rfl
  | succ f ih => intro count; rw [hstep]; exact ih (count + 1)

/-- C2: the claim (every accepted input terminates, §5 of the spec) is
what the code intends, but `str_replace`, `str_replace_all` and
`str_remove_all` loop forever on an empty `old`/`substr`: `strstr` with
an empty needle returns its haystack argument, so the scan pointer never
advances.  No amount of fuel lets the occurrence-counting loop or the
removal loop finish on the buffer "a", and the modelled calls yield the
divergence marker `none`. -/
theorem C2_empty_needle_divergence :
    (∀ fuel, countOccLoop [] fuel [97] = none) ∧
    (∀ fuel count, removeAllLoop [] fuel [97, 0] 1 0 count = none) ∧
    str_replace ⟨1, 16, [97, 0, 0, 0, 0, 0, 0, 0, 0, 0, 0, 0, 0, 0, 0, 0]⟩ [] [98] = none ∧
    str_replace_all ⟨1, 16, [97, 0, 0, 0, 0, 0, 0, 0, 0, 0, 0, 0, 0, 0, 0, 0]⟩ [] [98] = none ∧
    str_remove_all ⟨1, 16, [97, 0, 0, 0, 0, 0, 0, 0, 0, 0, 0, 0, 0, 0, 0, 0]⟩ [] = none := by
  refine ⟨countOccLoop_empty_old_diverges [97], removeAllLoop_empty_substr_diverges,
    by decide, by decide, ?_⟩
  show (match removeAllLoop [] 2 [97, 0, 0, 0, 0, 0, 0, 0, 0, 0, 0, 0, 0, 0, 0, 0] 1 0 0 with
    | none => none
    | some (d, len, count) => some (count,
        { length := len, capacity := 16, data := d })) = none
  decide

theorem byteAt_eq_getElem (d : List Nat) (i : Nat) : byteAt d i = (d[i]?).getD 0 := by
  rw [byteAt, List.getD_eq_getD_get?, List.get?_eq_getElem?]

theorem byteAt_take (d : List Nat) (n j : Nat) (h : j < n) :
    byteAt (d.take n) j = byteAt d j := by
  rw [byteAt_eq_getElem, byteAt_eq_getElem, List.getElem?_take_of_lt h]

theorem byteAt_drop (d : List Nat) (i j : Nat) :
    byteAt (d.drop i) j = byteAt d (i + j) := by
  rw [byteAt_eq_getElem, byteAt_eq_getElem, List.getElem?_drop]

theorem extractBytes_length (d : List Nat) (i n : Nat) :
    (extractBytes d i n).length = min n (d.length - i) := by
  simp [extractBytes]

theorem extractBytes_byteAt (d : List Nat) (i n k : Nat) (h : k < n) :
    byteAt (extractBytes d i n) k = byteAt d (i + k) := by
  rw [extractBytes, byteAt_take _ _ _ h, byteAt_drop]

theorem writeBytes_byteAt_lt (src : List Nat) (d : List Nat) (i j : Nat)
    (h : j < i) : byteAt (writeBytes d i src) j = byteAt d j := by
  induction src generalizing d i with
  | nil => rfl
  | cons b bs ih =>
      rw [writeBytes, ih (d.set i b) (i + 1) (by omega), byteAt_set]
      rw [if_neg (by omega)]

theorem writeBytes_byteAt_in (src : List Nat) :
    ∀ d i j, i ≤ j → j < i + src.length → j < d.length →
      byteAt (writeBytes d i src) j = byteAt src (j - i) := by
  induction src with
  | nil => intro d i j hij hj _; simp at hj; omega
  | cons b bs ih =>
      intro d i j hij hj hd
      rw [writeBytes]
      rcases Nat.eq_or_lt_of_le hij with rfl | hlt
      · rw [writeBytes_byteAt_lt bs _ _ _ (by omega), byteAt_set,
          if_pos ⟨rfl, by simpa using hd⟩]
        simp [byteAt]
      · rw [ih (d.set i b) (i + 1) j hlt (by simp at hj ⊢; omega) (by simpa using hd)]
        have hk : j - i = (j - (i + 1)) + 1 := by omega
        rw [hk]
        simp [byteAt]

theorem isPrefixOf_length_le (a : List Nat) : ∀ b, a.isPrefixOf b = true → a.length ≤ b.length := by
  induction a with
  | nil => intro b _; simp
  | cons x a' ih =>
      intro b h
      cases b with
      | nil => simp [List.isPrefixOf] at h
      | cons y b' =>
          simp only [List.isPrefixOf_cons₂, Bool.and_eq_true] at h
          have := ih b' h.2
          simp
          omega

theorem isPrefixOf_take (a : List Nat) : ∀ b, a.isPrefixOf b = true → b.take a.length = a := by
  induction a with
  | nil => intro b _; simp
  | cons x a' ih =>
      intro b h
      cases b with
      | nil => simp [List.isPrefixOf] at h
      | cons y b' =>
          simp only [List.isPrefixOf_cons₂, Bool.and_eq_true] at h
          have hy : x = y := by simpa using h.1
          simp only [List.length_cons, List.take_succ_cons]
          rw [ih b' h.2, hy]

theorem strFindAux_some (need : List Nat) :
    ∀ hay i, strFindAux need hay = some i →
      need.isPrefixOf (hay.drop i) = true ∧ i + need.length ≤ hay.length := by
  intro hay
  induction hay with
  | nil =>
      intro i h
      rw [strFindAux] at h
      by_cases hp : need.isPrefixOf ([] : List Nat) = true
      · rw [if_pos hp] at h
        injection h with h
        rw [← h]
        exact ⟨hp, by have := isPrefixOf_length_le need [] hp; simpa using this⟩
      · rw [if_neg hp] at h
        exact absurd h (by simp)
  | cons a t ih =>
      intro i h
      rw [strFindAux] at h
      by_cases hp : need.isPrefixOf (a :: t) = true
      · rw [if_pos hp] at h
        injection h with h
        rw [← h]
        refine ⟨by simpa using hp, ?_⟩
        have := isPrefixOf_length_le need (a :: t) hp
        omega
      · rw [if_neg hp] at h
        cases hrec : strFindAux need t with
        | none => rw [hrec] at h; exact absurd h (by simp)
        | some j =>
            rw [hrec] at h
            injection h with h
            obtain ⟨hpre, hlen⟩ := ih j hrec
            rw [← h]
            exact ⟨by simpa using hpre, by simp; omega⟩

theorem cstr_length_le_of_zero : ∀ (l : List Nat) (m : Nat), m < l.length →
    byteAt l m = 0 → (cstr l).length ≤ m := by
  intro l
  induction l with
  | nil => intro m hm; simp at hm
  | cons a t ih =>
      intro m hm h0
      cases m with
      | zero =>
          have ha : a = 0 := by simpa [byteAt] using h0
          simp [cstr, ha]
      | succ m =>
          by_cases ha : a = 0
          · simp [cstr, ha]
          · have h1 : (cstr (a :: t)).length = (cstr t).length + 1 := by
              simp [cstr, List.takeWhile_cons, ha]
            have h2 := ih m (by simpa using hm) (by simpa [byteAt] using h0)
            omega

theorem extractBytes_length_of_le (d : List Nat) (i n : Nat) (h : i + n ≤ d.length) :
    (extractBytes d i n).length = n := by
  rw [extractBytes_length]
  omega

theorem Wf_ensure (alloc : Nat → Bool) (s : Str) (c : Nat) (t : Str)
    (hw : Wf s) (hE : str_ensure_capacity alloc s c = some t) :
    Wf t ∧ t.length = s.length ∧ c ≤ t.capacity ∧ s.capacity ≤ t.capacity ∧
      t.data.length = t.capacity ∧
      (∀ j, j < s.data.length → byteAt t.data j = byteAt s.data j) := by
  obtain ⟨hd, hl, h0⟩ := hw
  obtain ⟨hlen, hreq, hcap, -, htake, hdlen⟩ := str_ensure_capacity_post _ _ _ _ hE
  have hdlen2 := hdlen hd
  have hbyte : ∀ j, j < s.data.length → byteAt t.data j = byteAt s.data j := by
    intro j hj
    rw [← htake, byteAt_take _ _ _ hj]
  refine ⟨⟨hdlen2, by omega, ?_⟩, hlen, hreq, hcap, hdlen2, hbyte⟩
  rw [hlen, hbyte s.length (by omega)]
  exact h0

theorem str_append_Wf (alloc : Nat → Bool) (s : Str) (a : List Nat) (hw : Wf s) :
    Wf (str_append alloc s a).2 := by
  unfold str_append
  cases hE : str_ensure_capacity alloc s (s.length + a.length + 1) with
  | none => exact hw
  | some t =>
      obtain ⟨⟨hd, hl, h0⟩, hlen, hreq, -, hdlen, hbyte⟩ := Wf_ensure _ _ _ _ hw hE
      refine ⟨by simpa [writeBytes_length] using hd,
        by show t.length + a.length < t.capacity; omega, ?_⟩
      show byteAt (writeBytes t.data t.length (a ++ [0])) (t.length + a.length) = 0
      rw [writeBytes_byteAt_in _ _ _ _ (by omega) (by simp) (by omega)]
      rw [byteAt_eq_getElem, List.getElem?_append_right (by simp)]
      simp

theorem str_append_char_Wf (alloc : Nat → Bool) (s : Str) (c : Nat) (hw : Wf s) :
    Wf (str_append_char alloc s c).2 := by
  unfold str_append_char
  cases hE : str_ensure_capacity alloc s (s.length + 2) with
  | none => exact hw
  | some t =>
      obtain ⟨⟨hd, hl, h0⟩, hlen, hreq, -, hdlen, hbyte⟩ := Wf_ensure _ _ _ _ hw hE
      refine ⟨by simpa using hd, by show t.length + 1 < t.capacity; omega, ?_⟩
      show byteAt ((t.data.set t.length c).set (t.length + 1) 0) (t.length + 1) = 0
      rw [byteAt_set, if_pos ⟨rfl, by simp; omega⟩]

theorem str_prepend_Wf (alloc : Nat → Bool) (s : Str) (txt : List Nat) (hw : Wf s) :
    Wf (str_prepend alloc s txt).2 := by
  unfold str_prepend
  cases hE : str_ensure_capacity alloc s (s.length + txt.length + 1) with
  | none => exact hw
  | some t =>
      obtain ⟨⟨hd, hl, h0⟩, hlen, hreq, -, hdlen, hbyte⟩ := Wf_ensure _ _ _ _ hw hE
      have hext : (extractBytes t.data 0 (t.length + 1)).length = t.length + 1 :=
        extractBytes_length_of_le _ _ _ (by omega)
      refine ⟨by simp [writeBytes_length]; exact hd, by simp; omega, ?_⟩
      show byteAt (writeBytes (writeBytes t.data txt.length
        (extractBytes t.data 0 (t.length + 1))) 0 txt) (t.length + txt.length) = 0
      rw [writeBytes_byteAt_ge _ _ _ _ (by omega)]
      rw [writeBytes_byteAt_in _ _ _ _ (by omega) (by rw [hext]; omega) (by omega)]
      rw [extractBytes_byteAt _ _ _ _ (by omega)]
      rw [show 0 + (t.length + txt.length - txt.length) = t.length by omega]
      exact h0

theorem str_insert_Wf (alloc : Nat → Bool) (s : Str) (index : Nat) (txt : List Nat)
    (hw : Wf s) : Wf (str_insert alloc s index txt).2 := by
  unfold str_insert
  split
  · exact hw
  · rename_i hidx
    cases hE : str_ensure_capacity alloc s (s.length + txt.length + 1) with
    | none => exact hw
    | some t =>
        obtain ⟨⟨hd, hl, h0⟩, hlen, hreq, -, hdlen, hbyte⟩ := Wf_ensure _ _ _ _ hw hE
        have hext : (extractBytes t.data index (t.length - index + 1)).length
            = t.length - index + 1 :=
          extractBytes_length_of_le _ _ _ (by omega)
        refine ⟨by simp [writeBytes_length]; exact hd, by simp; omega, ?_⟩
        show byteAt (writeBytes (writeBytes t.data (index + txt.length)
          (extractBytes t.data index (t.length - index + 1))) index txt)
          (t.length + txt.length) = 0
        rw [writeBytes_byteAt_ge _ _ _ _ (by omega)]
        rw [writeBytes_byteAt_in _ _ _ _ (by omega) (by rw [hext]; omega) (by omega)]
        rw [extractBytes_byteAt _ _ _ _ (by omega)]
        rw [show index + (t.length + txt.length - (index + txt.length)) = t.length by omega]
        exact h0

theorem str_remove_Wf (s : Str) (index count : Nat) (hw : Wf s) :
    Wf (str_remove s index count).2 := by
  unfold str_remove
  split
  · exact hw
  · rename_i hidx
    obtain ⟨hd, hl, h0⟩ := hw
    have hc : min count (s.length - index) ≤ s.length - index := Nat.min_le_right _ _
    have hext : (extractBytes s.data (index + min count (s.length - index))
        (s.length - index - min count (s.length - index) + 1)).length
        = s.length - index - min count (s.length - index) + 1 :=
      extractBytes_length_of_le _ _ _ (by omega)
    refine ⟨?_, ?_, ?_⟩
    · show (writeBytes s.data index _).length = s.capacity
      rw [writeBytes_length]
      exact hd
    · show s.length - min count (s.length - index) < s.capacity
      omega
    · show byteAt (writeBytes s.data index _) (s.length - min count (s.length - index)) = 0
      rw [writeBytes_byteAt_in _ _ _ _ (by omega) (by rw [hext]; omega) (by omega)]
      rw [extractBytes_byteAt _ _ _ _ (by omega)]
      rw [show index + min count (s.length - index) +
        (s.length - min count (s.length - index) - index) = s.length by omega]
      exact h0

theorem str_clear_Wf (s : Str) (hw : Wf s) : Wf (str_clear s) := by
  obtain ⟨hd, hl, h0⟩ := hw
  refine ⟨?_, ?_, ?_⟩
  · show (s.data.set 0 0).length = s.capacity
    simpa using hd
  · show (0 : Nat) < s.capacity
    omega
  · show byteAt (s.data.set 0 0) 0 = 0
    rw [byteAt_set, if_pos ⟨rfl, by omega⟩]

theorem str_resize_Wf (alloc : Nat → Bool) (s : Str) (n : Nat) (hw : Wf s) :
    Wf (str_resize alloc s n).2 := by
  unfold str_resize
  cases hE : str_ensure_capacity alloc s (n + 1) with
  | none => exact hw
  | some t =>
      obtain ⟨⟨hd, hl, h0⟩, hlen, hreq, -, hdlen, hbyte⟩ := Wf_ensure _ _ _ _ hw hE
      have hflen : (if t.length < n then
          writeBytes t.data t.length (List.replicate (n - t.length) 0)
        else t.data).length = t.data.length := by
        split
        · rw [writeBytes_length]
        · rfl
      refine ⟨by simp [hflen]; exact hd, by simp; omega, ?_⟩
      show byteAt ((if t.length < n then
          writeBytes t.data t.length (List.replicate (n - t.length) 0)
        else t.data).set n 0) n = 0
      rw [byteAt_set, if_pos ⟨rfl, by rw [hflen]; omega⟩]

theorem caseMapGo_length (f : Nat → Nat) : ∀ n d i, (caseMapGo f n d i).length = d.length := by
  intro n
  induction n with
  | zero => intro d i; rfl
  | succ m ih => intro d i; rw [caseMapGo, ih]; simp

theorem caseMapGo_byteAt_ge (f : Nat → Nat) :
    ∀ n d i j, i + n ≤ j → byteAt (caseMapGo f n d i) j = byteAt d j := by
  intro n
  induction n with
  | zero => intro d i j _; rfl
  | succ m ih =>
      intro d i j hj
      rw [caseMapGo, ih _ _ _ (by omega), byteAt_set, if_neg (by omega)]

theorem str_to_lower_Wf (s : Str) (hw : Wf s) : Wf (str_to_lower s) := by
  obtain ⟨hd, hl, h0⟩ := hw
  refine ⟨?_, hl, ?_⟩
  · show (caseMapGo tolowerB s.length s.data 0).length = s.capacity
    rw [caseMapGo_length]
    exact hd
  · show byteAt (caseMapGo tolowerB s.length s.data 0) s.length = 0
    rw [caseMapGo_byteAt_ge _ _ _ _ _ (by omega)]
    exact h0

theorem str_to_upper_Wf (s : Str) (hw : Wf s) : Wf (str_to_upper s) := by
  obtain ⟨hd, hl, h0⟩ := hw
  refine ⟨?_, hl, ?_⟩
  · show (caseMapGo toupperB s.length s.data 0).length = s.capacity
    rw [caseMapGo_length]
    exact hd
  · show byteAt (caseMapGo toupperB s.length s.data 0) s.length = 0
    rw [caseMapGo_byteAt_ge _ _ _ _ _ (by omega)]
    exact h0

theorem revLoop_length : ∀ f d i j, (revLoop f d i j).length = d.length := by
  intro f
  induction f with
  | zero => intro d i j; rfl
  | succ m ih =>
      intro d i j
      rw [revLoop]
      split
      · rw [ih]; simp
      · rfl

theorem revLoop_byteAt_gt : ∀ f d i j m, j < m → byteAt (revLoop f d i j) m = byteAt d m := by
  intro f
  induction f with
  | zero => intro d i j m _; rfl
  | succ n ih =>
      intro d i j m hm
      rw [revLoop]
      split
      · rename_i hij
        rw [ih _ _ _ _ (by omega), byteAt_set, if_neg (by omega), byteAt_set,
          if_neg (by omega)]
      · rfl

theorem str_reverse_in_place_Wf (s : Str) (hw : Wf s) : Wf (str_reverse_in_place s) := by
  obtain ⟨hd, hl, h0⟩ := hw
  unfold str_reverse_in_place
  split
  · exact ⟨hd, hl, h0⟩
  · rename_i hlen
    refine ⟨?_, hl, ?_⟩
    · show (revLoop s.length s.data 0 (s.length - 1)).length = s.capacity
      rw [revLoop_length]
      exact hd
    · show byteAt (revLoop s.length s.data 0 (s.length - 1)) s.length = 0
      rw [revLoop_byteAt_gt _ _ _ _ _ (by omega)]
      exact h0

theorem scanWsGo_ge (d : List Nat) : ∀ n start, start ≤ scanWsGo d n start := by
  intro n
  induction n with
  | zero => intro start; exact le_refl _
  | succ m ih =>
      intro start
      rw [scanWsGo]
      split
      · exact le_trans (by omega) (ih (start + 1))
      · exact le_refl _

theorem scanWsGo_le (d : List Nat) : ∀ n start, scanWsGo d n start ≤ start + n := by
  intro n
  induction n with
  | zero => intro start; simp [scanWsGo]
  | succ m ih =>
      intro start
      rw [scanWsGo]
      split
      · exact le_trans (ih (start + 1)) (by omega)
      · omega

theorem scanWs_le (d : List Nat) (len start : Nat) (h : start ≤ len) :
    scanWs d len start ≤ len := by
  have := scanWsGo_le d (len - start) start
  unfold scanWs
  omega

theorem scanWsRevFrom_le (d : List Nat) (start : Nat) :
    ∀ e, scanWsRevFrom d start e ≤ e := by
  intro e
  induction e with
  | zero => simp [scanWsRevFrom]
  | succ m ih =>
      rw [scanWsRevFrom]
      split
      · omega
      · exact le_refl _

theorem scanWsRevFrom_ge (d : List Nat) (start : Nat) :
    ∀ e, start ≤ e → start ≤ scanWsRevFrom d start e := by
  intro e
  induction e with
  | zero => intro h; simpa [scanWsRevFrom] using h
  | succ m ih =>
      intro h
      rw [scanWsRevFrom]
      split
      · rename_i hg
        exact ih (by omega)
      · exact h

theorem scanWsRevFrom_of_lt (d : List Nat) (start : Nat) :
    ∀ e, e < start → scanWsRevFrom d start e = e := by
  intro e
  induction e with
  | zero => intro h; rfl
  | succ m ih =>
      intro h
      rw [scanWsRevFrom]
      rw [if_neg (by omega)]

theorem scanWsRevZ_le (d : List Nat) : ∀ e, scanWsRevZ d e ≤ e := by
  intro e
  induction e with
  | zero => simp [scanWsRevZ]
  | succ m ih =>
      rw [scanWsRevZ]
      split
      · omega
      · exact le_refl _

theorem szSub_eq (a b : Nat) (hb : b ≤ a) (ha : a < W64) : szSub a b = a - b := by
  unfold szSub W64
  have h1 : a % 2 ^ 64 = a := Nat.mod_eq_of_lt ha
  have h2 : b % 2 ^ 64 = b := Nat.mod_eq_of_lt (by omega)
  rw [show (2:Nat) ^ 64 = 18446744073709551616 from by norm_num] at h1 h2 ⊢
  omega

theorem szAdd_eq (a b : Nat) (h : a + b < W64) : szAdd a b = a + b := by
  unfold szAdd W64 at *
  exact Nat.mod_eq_of_lt h

theorem szSub_wrap (a b : Nat) (hab : b = a + 1) (hb : b < W64) :
    szAdd (szSub a b) 1 = 0 := by
  unfold szSub szAdd W64 at *
  subst hab
  have h1 : a % 2 ^ 64 = a := Nat.mod_eq_of_lt (by omega)
  have h2 : (a + 1) % 2 ^ 64 = a + 1 := Nat.mod_eq_of_lt (by omega)
  rw [show (2:Nat) ^ 64 = 18446744073709551616 from by norm_num] at h1 h2 ⊢
  omega

theorem str_rtrim_Wf (s : Str) (hw : Wf s) : Wf (str_rtrim s) := by
  obtain ⟨hd, hl, h0⟩ := hw
  unfold str_rtrim
  split
  · exact ⟨hd, hl, h0⟩
  · rename_i hne
    have he := scanWsRevZ_le s.data (s.length - 1)
    refine ⟨?_, ?_, ?_⟩
    · show (s.data.set (scanWsRevZ s.data (s.length - 1) + 1) 0).length = s.capacity
      simpa using hd
    · show scanWsRevZ s.data (s.length - 1) + 1 < s.capacity
      omega
    · show byteAt (s.data.set (scanWsRevZ s.data (s.length - 1) + 1) 0)
        (scanWsRevZ s.data (s.length - 1) + 1) = 0
      rw [byteAt_set, if_pos ⟨rfl, by omega⟩]

theorem str_ltrim_Wf (s : Str) (hw : Wf s) : Wf (str_ltrim s) := by
  obtain ⟨hd, hl, h0⟩ := hw
  unfold str_ltrim
  split
  · exact ⟨hd, hl, h0⟩
  · rename_i hne
    have hs1 := scanWsGo_ge s.data (s.length - 0) 0
    have hs2 := scanWs_le s.data s.length 0 (by omega)
    set start := scanWs s.data s.length 0 with hstart
    have hext : (extractBytes s.data start (s.length - start)).length = s.length - start :=
      extractBytes_length_of_le _ _ _ (by omega)
    refine ⟨?_, ?_, ?_⟩
    · show ((writeBytes s.data 0 (extractBytes s.data start (s.length - start))).set
        (s.length - start) 0).length = s.capacity
      simpa [writeBytes_length] using hd
    · show s.length - start < s.capacity
      omega
    · show byteAt ((writeBytes s.data 0 (extractBytes s.data start (s.length - start))).set
        (s.length - start) 0) (s.length - start) = 0
      rw [byteAt_set, if_pos ⟨rfl, by rw [writeBytes_length]; omega⟩]

theorem str_trim_len_le (s : Str) (hW : s.length < W64) (hne : s.length ≠ 0) :
    szAdd (szSub (scanWsRevFrom s.data (scanWs s.data s.length 0) (s.length - 1))
      (scanWs s.data s.length 0)) 1 ≤ s.length := by
  have hs1 := scanWsGo_ge s.data (s.length - 0) 0
  have hs2 := scanWs_le s.data s.length 0 (by omega)
  set start := scanWs s.data s.length 0 with hstart
  set e := scanWsRevFrom s.data start (s.length - 1) with he
  have hele := scanWsRevFrom_le s.data start (s.length - 1)
  rcases Nat.lt_or_ge (s.length - 1) start with hcase | hcase
  · -- all whitespace: start = length, the size_t arithmetic wraps to 0
    have hstarteq : start = s.length := by omega
    have heeq : e = s.length - 1 := by
      rw [he, hstarteq]
      exact scanWsRevFrom_of_lt _ _ _ (by omega)
    rw [heeq, hstarteq, szSub_wrap _ _ (by omega) (by omega)]
    omega
  · have hge := scanWsRevFrom_ge s.data start (s.length - 1) hcase
    rw [szSub_eq _ _ (by omega) (by omega), szAdd_eq _ _ (by omega)]
    omega

theorem str_trim_Wf (s : Str) (hW : s.length < W64) (hw : Wf s) : Wf (str_trim s) := by
  obtain ⟨hd, hl, h0⟩ := hw
  unfold str_trim
  split
  · exact ⟨hd, hl, h0⟩
  · rename_i hne
    have hlen := str_trim_len_le s hW hne
    set start := scanWs s.data s.length 0 with hstart
    set e := scanWsRevFrom s.data start (s.length - 1) with he
    set newLen := szAdd (szSub e start) 1 with hnl
    refine ⟨?_, ?_, ?_⟩
    · show ((writeBytes s.data 0 (extractBytes s.data start newLen)).set newLen 0).length
        = s.capacity
      simpa [writeBytes_length] using hd
    · show newLen < s.capacity
      omega
    · show byteAt ((writeBytes s.data 0 (extractBytes s.data start newLen)).set newLen 0)
        newLen = 0
      rw [byteAt_set, if_pos ⟨rfl, by rw [writeBytes_length]; omega⟩]

theorem camelGo_facts : ∀ n d read write c,
    (camelGo n d read write c).1.length = d.length ∧
    (camelGo n d read write c).2 ≤ write + n := by
  intro n
  induction n with
  | zero => intro d read write c; exact ⟨rfl, by simp [camelGo]⟩
  | succ m ih =>
      intro d read write c
      rw [camelGo]
      split
      · obtain ⟨h1, h2⟩ := ih d (read + 1) write true
        exact ⟨h1, by omega⟩
      · split
        · obtain ⟨h1, h2⟩ := ih (d.set write (toupperB (byteAt d read))) (read + 1)
            (write + 1) false
          refine ⟨by rw [h1]; simp, by omega⟩
        · obtain ⟨h1, h2⟩ := ih (d.set write (tolowerB (byteAt d read))) (read + 1)
            (write + 1) false
          refine ⟨by rw [h1]; simp, by omega⟩

theorem pascalGo_facts (len : Nat) : ∀ n d read write c,
    (pascalGo len n d read write c).1.length = d.length ∧
    (pascalGo len n d read write c).2 ≤ write + n := by
  intro n
  induction n with
  | zero => intro d read write c; exact ⟨rfl, by simp [pascalGo]⟩
  | succ m ih =>
      intro d read write c
      rw [pascalGo]
      split
      · obtain ⟨h1, h2⟩ := ih d (read + 1) write true
        exact ⟨h1, by omega⟩
      · split
        · obtain ⟨h1, h2⟩ := ih (d.set write (toupperB (byteAt d read))) (read + 1)
            (write + 1) false
          refine ⟨by rw [h1]; simp, by omega⟩
        · split
          · obtain ⟨h1, h2⟩ := ih (d.set write (byteAt d read)) (read + 1) (write + 1) false
            refine ⟨by rw [h1]; simp, by omega⟩
          · obtain ⟨h1, h2⟩ := ih (d.set write (tolowerB (byteAt d read))) (read + 1)
              (write + 1) false
            refine ⟨by rw [h1]; simp, by omega⟩

theorem str_camel_case_Wf (s : Str) (hw : Wf s) : Wf (str_camel_case s) := by
  obtain ⟨hd, hl, h0⟩ := hw
  unfold str_camel_case
  split
  · exact ⟨hd, hl, h0⟩
  · rename_i hne
    obtain ⟨h1, h2⟩ := camelGo_facts (s.length - 1)
      (s.data.set 0 (tolowerB (byteAt s.data 0))) 1 1 false
    refine ⟨?_, ?_, ?_⟩
    · show ((camelGo (s.length - 1) (s.data.set 0 (tolowerB (byteAt s.data 0))) 1 1
        false).1.set (camelGo (s.length - 1) (s.data.set 0 (tolowerB (byteAt s.data 0)))
          1 1 false).2 0).length = s.capacity
      rw [List.length_set, h1]
      simpa using hd
    · show (camelGo (s.length - 1) (s.data.set 0 (tolowerB (byteAt s.data 0))) 1 1
        false).2 < s.capacity
      omega
    · show byteAt ((camelGo (s.length - 1) (s.data.set 0 (tolowerB (byteAt s.data 0)))
        1 1 false).1.set (camelGo (s.length - 1) (s.data.set 0 (tolowerB (byteAt s.data 0)))
          1 1 false).2 0) (camelGo (s.length - 1) (s.data.set 0 (tolowerB (byteAt s.data 0)))
          1 1 false).2 = 0
      rw [byteAt_set, if_pos ⟨rfl, by rw [h1]; simp; omega⟩]

theorem str_pascal_case_Wf (s : Str) (hw : Wf s) : Wf (str_pascal_case s) := by
  obtain ⟨hd, hl, h0⟩ := hw
  unfold str_pascal_case
  split
  · exact ⟨hd, hl, h0⟩
  · rename_i hne
    obtain ⟨h1, h2⟩ := pascalGo_facts s.length s.length s.data 0 0 true
    refine ⟨?_, ?_, ?_⟩
    · show ((pascalGo s.length s.length s.data 0 0 true).1.set
        (pascalGo s.length s.length s.data 0 0 true).2 0).length = s.capacity
      rw [List.length_set, h1]
      exact hd
    · show (pascalGo s.length s.length s.data 0 0 true).2 < s.capacity
      omega
    · show byteAt ((pascalGo s.length s.length s.data 0 0 true).1.set
        (pascalGo s.length s.length s.data 0 0 true).2 0)
        (pascalGo s.length s.length s.data 0 0 true).2 = 0
      rw [byteAt_set, if_pos ⟨rfl, by rw [h1]; omega⟩]

theorem snakeGo_Wf (alloc : Nat → Bool) : ∀ fuel s i, Wf s → Wf (snakeGo alloc fuel s i) := by
  intro fuel
  induction fuel with
  | zero => intro s i hw; exact hw
  | succ f ih =>
      intro s i hw
      obtain ⟨hd, hl, h0⟩ := hw
      rw [snakeGo]
      split
      · rename_i hi
        split
        · have hw1 : Wf { s with data := s.data.set i (tolowerB (byteAt s.data i)) } := by
            refine ⟨by simpa using hd, hl, ?_⟩
            show byteAt (s.data.set i (tolowerB (byteAt s.data i))) s.length = 0
            rw [byteAt_set, if_neg (by omega)]
            exact h0
          split
          · exact ih _ _ (str_insert_Wf alloc _ i [95] hw1)
          · exact ih _ _ hw1
        · exact ih _ _ ⟨hd, hl, h0⟩
      · exact ⟨hd, hl, h0⟩

theorem str_snake_case_Wf (alloc : Nat → Bool) (s : Str) (hw : Wf s) :
    Wf (str_snake_case alloc s) :=
  snakeGo_Wf alloc s.length s 0 hw

theorem removeAllLoop_some (substr : List Nat) (hne : substr ≠ []) :
    ∀ fuel d len pos count, pos ≤ len → len < d.length → byteAt d len = 0 → len < fuel →
      ∃ d' len' count', removeAllLoop substr fuel d len pos count = some (d', len', count') ∧
        d'.length = d.length ∧ len' ≤ len ∧ byteAt d' len' = 0 := by
  have hsl : 0 < substr.length := by cases substr with
    | nil => exact absurd rfl hne
    | cons a t => simp
  intro fuel
  induction fuel with
  | zero => intro d len pos count _ _ _ hf; omega
  | succ f ih =>
      intro d len pos count hpos hlen h0 hf
      rw [removeAllLoop]
      cases hfind : strFindAux substr (cstr (d.drop pos)) with
      | none => exact ⟨d, len, count, rfl, rfl, le_refl _, h0⟩
      | some i =>
          obtain ⟨hpre, hbound⟩ := strFindAux_some substr _ _ hfind
          have hcl : (cstr (d.drop pos)).length ≤ len - pos := by
            refine cstr_length_le_of_zero _ _ (by simp; omega) ?_
            rw [byteAt_drop]
            rw [show pos + (len - pos) = len by omega]
            exact h0
          have hqs : pos + i + substr.length ≤ len := by omega
          have hext : (extractBytes d (pos + i + substr.length)
              (len - (pos + i) - substr.length + 1)).length
              = len - (pos + i) - substr.length + 1 :=
            extractBytes_length_of_le _ _ _ (by omega)
          have hd2len : (writeBytes d (pos + i) (extractBytes d (pos + i + substr.length)
              (len - (pos + i) - substr.length + 1))).length = d.length :=
            writeBytes_length _ _ _
          have hterm : byteAt (writeBytes d (pos + i) (extractBytes d
              (pos + i + substr.length) (len - (pos + i) - substr.length + 1)))
              (len - substr.length) = 0 := by
            rw [writeBytes_byteAt_in _ _ _ _ (by omega) (by rw [hext]; omega) (by omega)]
            rw [extractBytes_byteAt _ _ _ _ (by omega)]
            rw [show pos + i + substr.length + (len - substr.length - (pos + i)) = len
              by omega]
            exact h0
          obtain ⟨d', len', count', hrec, hrl, hrle, hr0⟩ := ih _ (len - substr.length)
            (pos + i) (count + 1) (by omega) (by omega) hterm (by omega)
          exact ⟨d', len', count', hrec, by rw [hrl, hd2len], by omega, hr0⟩

theorem str_remove_all_some (s : Str) (substr : List Nat) (hne : substr ≠ [])
    (hw : Wf s) : ∃ c t, str_remove_all s substr = some (c, t) ∧ Wf t := by
  obtain ⟨hd, hl, h0⟩ := hw
  obtain ⟨d', len', count', hrec, hrl, hrle, hr0⟩ :=
    removeAllLoop_some substr hne (s.length + 1) s.data s.length 0 0
      (by omega) (by omega) h0 (by omega)
  refine ⟨count', ⟨len', s.capacity, d'⟩, ?_, ?_⟩
  · unfold str_remove_all
    rw [hrec]
  · exact ⟨by show d'.length = s.capacity; rw [hrl]; exact hd,
      by show len' < s.capacity; omega, hr0⟩

/-- C3: after every successful mutating operation the byte stored at
index `length` is the terminator `data[length] = 0` — proved for every
in-place mutating operation of §4 on a well-formed buffer (both on the
success path and on the failure path, which leaves the buffer as it
was), including the success path of `str_append_fmt` (whose second
`vsnprintf` pass, reporting `0 ≤ written < size` bytes, stores exactly
those bytes and its own terminator; its truncation/error path is the
subject of C8); `str_trim` additionally assumes the length fits in a
`size_t`, which its internal wrap-around arithmetic presupposes. -/
theorem C3_terminator_after_mutation :
    (∀ alloc s a, Wf s →
      byteAt (str_append alloc s a).2.data (str_append alloc s a).2.length = 0) ∧
    (∀ alloc s c, Wf s →
      byteAt (str_append_char alloc s c).2.data (str_append_char alloc s c).2.length = 0) ∧
    (∀ alloc s txt, Wf s →
      byteAt (str_prepend alloc s txt).2.data (str_prepend alloc s txt).2.length = 0) ∧
    (∀ alloc s i txt, Wf s →
      byteAt (str_insert alloc s i txt).2.data (str_insert alloc s i txt).2.length = 0) ∧
    (∀ s i c, Wf s →
      byteAt (str_remove s i c).2.data (str_remove s i c).2.length = 0) ∧
    (∀ s, Wf s → byteAt (str_clear s).data (str_clear s).length = 0) ∧
    (∀ alloc s n, Wf s →
      byteAt (str_resize alloc s n).2.data (str_resize alloc s n).2.length = 0) ∧
    (∀ s substr, Wf s → substr ≠ [] →
      ∃ c t, str_remove_all s substr = some (c, t) ∧ byteAt t.data t.length = 0) ∧
    (∀ s, Wf s → byteAt (str_to_lower s).data (str_to_lower s).length = 0) ∧
    (∀ s, Wf s → byteAt (str_to_upper s).data (str_to_upper s).length = 0) ∧
    (∀ alloc s, Wf s →
      byteAt (str_snake_case alloc s).data (str_snake_case alloc s).length = 0) ∧
    (∀ s, Wf s → byteAt (str_camel_case s).data (str_camel_case s).length = 0) ∧
    (∀ s, Wf s → byteAt (str_pascal_case s).data (str_pascal_case s).length = 0) ∧
    (∀ s, Wf s → s.length < W64 →
      byteAt (str_trim s).data (str_trim s).length = 0) ∧
    (∀ s, Wf s → byteAt (str_ltrim s).data (str_ltrim s).length = 0) ∧
    (∀ s, Wf s → byteAt (str_rtrim s).data (str_rtrim s).length = 0) ∧
    (∀ s, Wf s →
      byteAt (str_reverse_in_place s).data (str_reverse_in_place s).length = 0) ∧
    (∀ (alloc : Nat → Bool) s (size written : Int) (out : List Nat), Wf s →
      0 ≤ written → written < size → out.length = written.toNat →
      byteAt (str_append_fmt alloc s size written out).2.data
        (str_append_fmt alloc s size written out).2.length = 0) := by
  refine ⟨fun alloc s a hw => (str_append_Wf alloc s a hw).2.2,
    fun alloc s c hw => (str_append_char_Wf alloc s c hw).2.2,
    fun alloc s txt hw => (str_prepend_Wf alloc s txt hw).2.2,
    fun alloc s i txt hw => (str_insert_Wf alloc s i txt hw).2.2,
    fun s i c hw => (str_remove_Wf s i c hw).2.2,
    fun s hw => (str_clear_Wf s hw).2.2,
    fun alloc s n hw => (str_resize_Wf alloc s n hw).2.2,
    ?_,
    fun s hw => (str_to_lower_Wf s hw).2.2,
    fun s hw => (str_to_upper_Wf s hw).2.2,
    fun alloc s hw => (str_snake_case_Wf alloc s hw).2.2,
    fun s hw => (str_camel_case_Wf s hw).2.2,
    fun s hw => (str_pascal_case_Wf s hw).2.2,
    fun s hw hW => (str_trim_Wf s hW hw).2.2,
    fun s hw => (str_ltrim_Wf s hw).2.2,
    fun s hw => (str_rtrim_Wf s hw).2.2,
    fun s hw => (str_reverse_in_place_Wf s hw).2.2, ?_⟩
  · intro s substr hw hne
    obtain ⟨c, t, hrec, hwt⟩ := str_remove_all_some s substr hne hw
    exact ⟨c, t, hrec, hwt.2.2⟩
  · intro alloc s size written out hw h0 hlt hout
    unfold str_append_fmt
    rw [if_neg (by omega)]
    dsimp only
    cases hE : str_ensure_capacity alloc s (s.length + size.toNat + 1) with
    | none => exact hw.2.2
    | some t =>
        obtain ⟨⟨hd, hl, h0'⟩, hlen, hreq, -, hdlen, hbyte⟩ := Wf_ensure _ _ _ _ hw hE
        dsimp only
        rw [if_neg (by omega), if_neg (by omega)]
        show byteAt (writeBytes t.data t.length (out.take size.toNat ++ [0]))
          (t.length + written.toNat) = 0
        rw [List.take_of_length_le (by omega)]
        rw [writeBytes_byteAt_in _ _ _ _ (by omega) (by simp; omega) (by omega)]
        rw [byteAt_eq_getElem, List.getElem?_append_right (by omega)]
        simp [hout]

/-- Witness for C3: the snake-case, in-place-reverse, append and
formatted-append (success-path) conjuncts applied to concrete
well-formed buffers ("hI" with an always-succeeding allocator,
"Hello", "hi" ++ "!!", and "ab" with a dry run of 3 and a second pass
writing the 2 bytes "xy"). -/
theorem C3_witness :
    byteAt (str_snake_case (fun _ => true)
      ⟨2, 16, [104, 73, 0, 0, 0, 0, 0, 0, 0, 0, 0, 0, 0, 0, 0, 0]⟩).data
      (str_snake_case (fun _ => true)
      ⟨2, 16, [104, 73, 0, 0, 0, 0, 0, 0, 0, 0, 0, 0, 0, 0, 0, 0]⟩).length = 0 ∧
    byteAt (str_reverse_in_place
      ⟨5, 16, [72, 101, 108, 108, 111, 0, 0, 0, 0, 0, 0, 0, 0, 0, 0, 0]⟩).data
      (str_reverse_in_place
      ⟨5, 16, [72, 101, 108, 108, 111, 0, 0, 0, 0, 0, 0, 0, 0, 0, 0, 0]⟩).length = 0 ∧
    byteAt (str_append (fun _ => true)
      ⟨2, 16, [104, 105, 0, 0, 0, 0, 0, 0, 0, 0, 0, 0, 0, 0, 0, 0]⟩ [33, 33]).2.data
      (str_append (fun _ => true)
      ⟨2, 16, [104, 105, 0, 0, 0, 0, 0, 0, 0, 0, 0, 0, 0, 0, 0, 0]⟩ [33, 33]).2.length = 0 ∧
    byteAt (str_append_fmt (fun _ => true)
      ⟨2, 16, [97, 98, 0, 0, 0, 0, 0, 0, 0, 0, 0, 0, 0, 0, 0, 0]⟩ 3 2 [120, 121]).2.data
      (str_append_fmt (fun _ => true)
      ⟨2, 16, [97, 98, 0, 0, 0, 0, 0, 0, 0, 0, 0, 0, 0, 0, 0, 0]⟩ 3 2 [120, 121]).2.length
      = 0 :=
  ⟨C3_terminator_after_mutation.2.2.2.2.2.2.2.2.2.2.1 (fun _ => true)
      ⟨2, 16, [104, 73, 0, 0, 0, 0, 0, 0, 0, 0, 0, 0, 0, 0, 0, 0]⟩ (by decide),
    C3_terminator_after_mutation.2.2.2.2.2.2.2.2.2.2.2.2.2.2.2.2.1
      ⟨5, 16, [72, 101, 108, 108, 111, 0, 0, 0, 0, 0, 0, 0, 0, 0, 0, 0]⟩ (by decide),
    C3_terminator_after_mutation.1 (fun _ => true)
      ⟨2, 16, [104, 105, 0, 0, 0, 0, 0, 0, 0, 0, 0, 0, 0, 0, 0, 0]⟩ [33, 33] (by decide),
    C3_terminator_after_mutation.2.2.2.2.2.2.2.2.2.2.2.2.2.2.2.2.2 (fun _ => true)
      ⟨2, 16, [97, 98, 0, 0, 0, 0, 0, 0, 0, 0, 0, 0, 0, 0, 0, 0]⟩ 3 2 [120, 121]
      (by decide) (by decide) (by decide) (by decide)⟩

/-- C7 (amended): `str_ensure_capacity` is a no-op succeeding whenever
the capacity already suffices, otherwise rounds the request up to the
next power of two ≥ 16 and reallocates keeping the old bytes; on
allocation failure it returns false leaving the buffer untouched, and
every growing mutating operation except `str_snake_case` calls it first
and propagates the failure with the buffer exactly as it was.
(`str_snake_case` ignores the failure of its internal `str_insert` and
can partially mutate — see the counterexample.) -/
theorem C7_ensure_capacity_and_failure_propagation :
    (∀ alloc s c, c ≤ s.capacity → str_ensure_capacity alloc s c = some s) ∧
    (∀ alloc s c, s.capacity < c → alloc (str_round_capacity c) = true →
      ∃ t, str_ensure_capacity alloc s c = some t ∧
        t.capacity = str_round_capacity c ∧ 16 ≤ t.capacity ∧ isPow2 t.capacity ∧
        t.length = s.length ∧ t.data.take s.data.length = s.data) ∧
    (∀ alloc s c, s.capacity < c → alloc (str_round_capacity c) = false →
      str_ensure_capacity alloc s c = none) ∧
    (∀ alloc s a, str_ensure_capacity alloc s (s.length + a.length + 1) = none →
      str_append alloc s a = (false, s)) ∧
    (∀ alloc s c, str_ensure_capacity alloc s (s.length + 2) = none →
      str_append_char alloc s c = (false, s)) ∧
    (∀ alloc s txt, str_ensure_capacity alloc s (s.length + txt.length + 1) = none →
      str_prepend alloc s txt = (false, s)) ∧
    (∀ alloc s i txt, str_ensure_capacity alloc s (s.length + txt.length + 1) = none →
      str_insert alloc s i txt = (false, s)) ∧
    (∀ alloc s n, str_ensure_capacity alloc s (n + 1) = none →
      str_resize alloc s n = (false, s)) ∧
    (∀ alloc s size written out, (0 : Int) ≤ size →
      str_ensure_capacity alloc s (s.length + size.toNat + 1) = none →
      str_append_fmt alloc s size written out = (false, s)) := by
  refine ⟨?_, ?_, ?_, ?_, ?_, ?_, ?_, ?_, ?_⟩
  · intro alloc s c h
    unfold str_ensure_capacity
    rw [if_pos h]
  · intro alloc s c hlt halloc
    unfold str_ensure_capacity
    rw [if_neg (by omega)]
    dsimp only
    rw [if_pos halloc]
    refine ⟨_, rfl, rfl, str_round_capacity_min c, str_round_capacity_pow2 c, rfl, ?_⟩
    show (s.data ++ _).take s.data.length = s.data
    rw [List.take_left]
  · intro alloc s c hlt halloc
    unfold str_ensure_capacity
    rw [if_neg (by omega)]
    dsimp only
    rw [if_neg (by simp [halloc])]
  · intro alloc s a hE
    unfold str_append
    rw [hE]
  · intro alloc s c hE
    unfold str_append_char
    rw [hE]
  · intro alloc s txt hE
    unfold str_prepend
    rw [hE]
  · intro alloc s i txt hE
    unfold str_insert
    split
    · rfl
    · rw [hE]
  · intro alloc s n hE
    unfold str_resize
    rw [hE]
  · intro alloc s size written out hsz hE
    unfold str_append_fmt
    rw [if_neg (by omega)]
    dsimp only
    rw [hE]

/-- Counterexample to C7 as stated: on a full 15-byte buffer with a
failing allocator, `str_snake_case` (a mutating operation that grows
through `str_insert`) still lowercases the byte at index 14 although the
very `str_ensure_capacity` call of that insert fails — a partial
mutation with no failure propagated (the function returns nothing).
The third conjunct shows the allocation failure really occurs at that
state. -/
theorem C7_counterexample :
    (str_snake_case (fun _ => false)
      ⟨15, 16, [97, 97, 97, 97, 97, 97, 97, 97, 97, 97, 97, 97, 97, 97, 66, 0]⟩).data
      = [97, 97, 97, 97, 97, 97, 97, 97, 97, 97, 97, 97, 97, 97, 98, 0] ∧
    (str_snake_case (fun _ => false)
      ⟨15, 16, [97, 97, 97, 97, 97, 97, 97, 97, 97, 97, 97, 97, 97, 97, 66, 0]⟩).data
      ≠ [97, 97, 97, 97, 97, 97, 97, 97, 97, 97, 97, 97, 97, 97, 66, 0] ∧
    str_ensure_capacity (fun _ => false)
      ⟨15, 16, [97, 97, 97, 97, 97, 97, 97, 97, 97, 97, 97, 97, 97, 97, 98, 0]⟩ 17 = none := by
  refine ⟨by decide, by decide, by decide⟩

/-- Witness for C7: the no-op conjunct and the failure-propagation
conjunct of `str_append` at concrete inputs. -/
theorem C7_witness :
    str_ensure_capacity (fun _ => false)
      ⟨2, 16, [104, 105, 0, 0, 0, 0, 0, 0, 0, 0, 0, 0, 0, 0, 0, 0]⟩ 10 =
      some ⟨2, 16, [104, 105, 0, 0, 0, 0, 0, 0, 0, 0, 0, 0, 0, 0, 0, 0]⟩ ∧
    str_append (fun _ => false)
      ⟨15, 16, [97, 97, 97, 97, 97, 97, 97, 97, 97, 97, 97, 97, 97, 97, 98, 0]⟩ [98, 98] =
      (false, ⟨15, 16, [97, 97, 97, 97, 97, 97, 97, 97, 97, 97, 97, 97, 97, 97, 98, 0]⟩) :=
  ⟨C7_ensure_capacity_and_failure_propagation.1 (fun _ => false)
      ⟨2, 16, [104, 105, 0, 0, 0, 0, 0, 0, 0, 0, 0, 0, 0, 0, 0, 0]⟩ 10 (by decide),
    C7_ensure_capacity_and_failure_propagation.2.2.2.1 (fun _ => false)
      ⟨15, 16, [97, 97, 97, 97, 97, 97, 97, 97, 97, 97, 97, 97, 97, 97, 98, 0]⟩ [98, 98]
      (by decide)⟩

/-- C8: when the in-place formatting pass of `str_append_fmt` cannot
fully emit after a successful dry run — truncation (`written ≥ size`,
where the bounded `vsnprintf` has emitted exactly `size` payload bytes)
or a formatting error (`written < 0`) — the operation still returns
true (no hard failure), sets the length to the old length plus the
dry-run size, and re-terminates at that length; in the truncation case
the `size` bytes preceding the new terminator are exactly the bytes the
bounded pass wrote, so the length is clamped to exactly what was
written. -/
theorem C8_append_fmt_truncation_recovery (alloc : Nat → Bool) (s t : Str)
    (size written : Int) (out : List Nat) (hw : Wf s) (hsz : 0 ≤ size)
    (hE : str_ensure_capacity alloc s (s.length + size.toNat + 1) = some t)
    (hbr : size ≤ written ∨ written < 0) :
    (str_append_fmt alloc s size written out).1 = true ∧
    (str_append_fmt alloc s size written out).2.length = s.length + size.toNat ∧
    byteAt (str_append_fmt alloc s size written out).2.data (s.length + size.toNat) = 0 ∧
    (size ≤ written → written = (out.length : Int) →
      extractBytes (str_append_fmt alloc s size written out).2.data s.length size.toNat
        = out.take size.toNat) := by
  obtain ⟨⟨hd, hl, h0⟩, hlen, hreq, -, hdlen, hbyte⟩ := Wf_ensure _ _ _ _ hw hE
  unfold str_append_fmt
  rw [if_neg (by omega)]
  dsimp only
  rw [hE]
  dsimp only
  rw [if_pos (Or.symm hbr)]
  have hdl : (if written < 0 then t.data
      else writeBytes t.data t.length (out.take size.toNat ++ [0])).length
      = t.data.length := by
    split
    · rfl
    · rw [writeBytes_length]
  refine ⟨rfl, by simp [hlen], ?_, ?_⟩
  · show byteAt ((if written < 0 then t.data
      else writeBytes t.data t.length (out.take size.toNat ++ [0])).set
        (t.length + size.toNat) 0) (s.length + size.toNat) = 0
    rw [byteAt_set, if_pos ⟨by omega, by rw [hdl]; omega⟩]
  · intro htr hwr
    have hout : size.toNat ≤ out.length := by omega
    show extractBytes ((if written < 0 then t.data
      else writeBytes t.data t.length (out.take size.toNat ++ [0])).set
        (t.length + size.toNat) 0) s.length size.toNat = out.take size.toNat
    rw [if_neg (by omega)]
    have htk : (out.take size.toNat).length = size.toNat := by simp; omega
    have hwb := writeBytes_eq (out.take size.toNat ++ [0]) t.data t.length
      (by simp; omega)
    apply List.ext_getElem
    · rw [extractBytes_length, List.length_set, writeBytes_length, htk]
      omega
    · intro k hk1 hk2
      have hklt : k < size.toNat := by
        rw [extractBytes_length, List.length_set, writeBytes_length] at hk1
        omega
      have h1 : byteAt (extractBytes ((writeBytes t.data t.length
          (out.take size.toNat ++ [0])).set (t.length + size.toNat) 0)
          s.length size.toNat) k = byteAt (out.take size.toNat) k := by
        rw [extractBytes_byteAt _ _ _ _ hklt]
        rw [byteAt_set, if_neg (by omega)]
        rw [← hlen]
        rw [writeBytes_byteAt_in _ _ _ _ (by omega) (by simp; omega)
          (by omega)]
        rw [show t.length + k - t.length = k by omega]
        rw [byteAt_eq_getElem, byteAt_eq_getElem]
        rw [List.getElem?_append_left (by rw [htk]; omega)]
      rw [byteAt_eq_getElem, byteAt_eq_getElem] at h1
      rw [List.getElem?_eq_getElem hk1, List.getElem?_eq_getElem hk2] at h1
      simpa using h1

/-- Witness for C8 at a concrete two-byte buffer, dry-run size 3 and a
second pass reporting 5 pending bytes (truncation): the capacity check
is already satisfied, so `str_ensure_capacity` is the identity. -/
theorem C8_witness :
    (str_append_fmt (fun _ => true)
      ⟨2, 16, [97, 98, 0, 0, 0, 0, 0, 0, 0, 0, 0, 0, 0, 0, 0, 0]⟩ 3 5
      [120, 121, 122, 119, 118]).1 = true ∧
    (str_append_fmt (fun _ => true)
      ⟨2, 16, [97, 98, 0, 0, 0, 0, 0, 0, 0, 0, 0, 0, 0, 0, 0, 0]⟩ 3 5
      [120, 121, 122, 119, 118]).2.length = 2 + (3 : Int).toNat ∧
    byteAt (str_append_fmt (fun _ => true)
      ⟨2, 16, [97, 98, 0, 0, 0, 0, 0, 0, 0, 0, 0, 0, 0, 0, 0, 0]⟩ 3 5
      [120, 121, 122, 119, 118]).2.data (2 + (3 : Int).toNat) = 0 ∧
    ((3 : Int) ≤ 5 → (5 : Int) = ([120, 121, 122, 119, 118].length : Nat) →
      extractBytes (str_append_fmt (fun _ => true)
        ⟨2, 16, [97, 98, 0, 0, 0, 0, 0, 0, 0, 0, 0, 0, 0, 0, 0, 0]⟩ 3 5
        [120, 121, 122, 119, 118]).2.data 2 (3 : Int).toNat
        = [120, 121, 122, 119, 118].take (3 : Int).toNat) :=
  C8_append_fmt_truncation_recovery (fun _ => true)
    ⟨2, 16, [97, 98, 0, 0, 0, 0, 0, 0, 0, 0, 0, 0, 0, 0, 0, 0]⟩
    ⟨2, 16, [97, 98, 0, 0, 0, 0, 0, 0, 0, 0, 0, 0, 0, 0, 0, 0]⟩ 3 5
    [120, 121, 122, 119, 118] (by decide) (by decide) (by decide) (Or.inl (by decide))

/-- Removing the leading whitespace run (the spec's words for `ltrim`). -/
def wsDropStart (l : List Nat) : List Nat := l.dropWhile isspaceB

/-- Removing the trailing whitespace run (the spec's words for `rtrim`). -/
def wsDropEnd (l : List Nat) : List Nat := (l.reverse.dropWhile isspaceB).reverse

theorem dropWhile_eq_drop_len (p : Nat → Bool) :
    ∀ l : List Nat, l.dropWhile p = l.drop (l.takeWhile p).length := by
  intro l
  induction l with
  | nil => rfl
  | cons a t ih =>
      by_cases hp : p a = true
      · simp [List.dropWhile_cons, List.takeWhile_cons, hp, ih]
      · simp [List.dropWhile_cons, List.takeWhile_cons, hp]

theorem take_set_of_le (l : List Nat) : ∀ i v n, n ≤ i → (l.set i v).take n = l.take n := by
  induction l with
  | nil => intro i v n _; rfl
  | cons a t ih =>
      intro i v n hn
      cases i with
      | zero =>
          have : n = 0 := by omega
          simp [this]
      | succ i =>
          cases n with
          | zero => rfl
          | succ n => simp [ih i v n (by omega)]

theorem takeWhile_boundary (p : Nat → Bool) :
    ∀ c : List Nat, (c.takeWhile p).length < c.length →
      p (byteAt c (c.takeWhile p).length) = false := by
  intro c
  induction c with
  | nil => intro h; simp at h
  | cons a t ih =>
      intro h
      by_cases hp : p a = true
      · rw [List.takeWhile_cons, if_pos hp] at h ⊢
        simp only [List.length_cons]
        have := ih (by simpa using h)
        simpa [byteAt] using this
      · rw [List.takeWhile_cons, if_neg hp] at h ⊢
        simpa [byteAt] using hp

theorem scanWsGo_spec (d : List Nat) : ∀ n start,
    scanWsGo d n start = start + ((extractBytes d start n).takeWhile isspaceB).length := by
  intro n
  induction n with
  | zero => intro start; simp [scanWsGo, extractBytes]
  | succ m ih =>
      intro start
      rw [scanWsGo]
      by_cases hws : isspaceB (byteAt d start) = true
      · have hlt : start < d.length := by
          by_contra hge
          push_neg at hge
          rw [show byteAt d start = 0 from by
            rw [byteAt, List.getD_eq_default]; omega] at hws
          exact absurd hws (by decide)
        rw [if_pos hws, ih (start + 1)]
        have hcons : extractBytes d start (m + 1)
            = byteAt d start :: extractBytes d (start + 1) m := by
          unfold extractBytes
          rw [List.drop_eq_getElem_cons hlt, List.take_succ_cons]
          congr 1
          rw [byteAt, List.getD_eq_getElem _ _ hlt]
        rw [hcons, List.takeWhile_cons, if_pos hws]
        simp
        omega
      · rw [if_neg hws]
        rcases Nat.lt_or_ge start d.length with hlt | hge
        · have hcons : extractBytes d start (m + 1)
              = byteAt d start :: extractBytes d (start + 1) m := by
            unfold extractBytes
            rw [List.drop_eq_getElem_cons hlt, List.take_succ_cons]
            congr 1
            rw [byteAt, List.getD_eq_getElem _ _ hlt]
          rw [hcons, List.takeWhile_cons, if_neg hws]
          simp
        · have : extractBytes d start (m + 1) = [] := by
            unfold extractBytes
            rw [List.drop_eq_nil_of_le (by omega)]
            rfl
          rw [this]
          simp

theorem scanWs_spec (d : List Nat) (len : Nat) (_hlen : len ≤ d.length) :
    scanWs d len 0 = ((d.take len).takeWhile isspaceB).length := by
  unfold scanWs
  rw [scanWsGo_spec]
  simp [extractBytes]

theorem scanWsRevZ_spec (d : List Nat) : ∀ e,
    (∀ j, scanWsRevZ d e < j → j ≤ e → isspaceB (byteAt d j) = true) ∧
    (scanWsRevZ d e = 0 ∨ isspaceB (byteAt d (scanWsRevZ d e)) = false) := by
  intro e
  induction e with
  | zero => exact ⟨fun j h1 h2 => by omega, Or.inl rfl⟩
  | succ m ih =>
      rw [scanWsRevZ]
      by_cases hws : isspaceB (byteAt d (m + 1)) = true
      · rw [if_pos hws]
        obtain ⟨ih1, ih2⟩ := ih
        refine ⟨?_, ih2⟩
        intro j h1 h2
        rcases Nat.lt_or_ge j (m + 1) with hj | hj
        · exact ih1 j h1 (by omega)
        · rw [show j = m + 1 by omega]
          exact hws
      · rw [if_neg hws]
        exact ⟨fun j h1 h2 => by omega, Or.inr (by simpa using hws)⟩

theorem scanWsRevFrom_spec (d : List Nat) (start : Nat) : ∀ e,
    (∀ j, scanWsRevFrom d start e < j → j ≤ e → isspaceB (byteAt d j) = true) ∧
    (scanWsRevFrom d start e ≤ start ∨
      isspaceB (byteAt d (scanWsRevFrom d start e)) = false) := by
  intro e
  induction e with
  | zero => exact ⟨fun j h1 h2 => by omega, Or.inl (by simp [scanWsRevFrom])⟩
  | succ m ih =>
      rw [scanWsRevFrom]
      by_cases hg : start < m + 1 ∧ isspaceB (byteAt d (m + 1)) = true
      · rw [if_pos hg]
        obtain ⟨ih1, ih2⟩ := ih
        refine ⟨?_, ih2⟩
        intro j h1 h2
        rcases Nat.lt_or_ge j (m + 1) with hj | hj
        · exact ih1 j h1 (by omega)
        · rw [show j = m + 1 by omega]
          exact hg.2
      · rw [if_neg hg]
        refine ⟨fun j h1 h2 => by omega, ?_⟩
        rcases Nat.lt_or_ge start (m + 1) with hs | hs
        · refine Or.inr ?_
          by_contra hcon
          exact hg ⟨hs, by simpa using hcon⟩
        · exact Or.inl hs

theorem wsDropEnd_append (a b : List Nat) (hb : ∀ x ∈ b, isspaceB x = true)
    (ha : a = [] ∨ isspaceB (byteAt a (a.length - 1)) = false) :
    wsDropEnd (a ++ b) = a := by
  unfold wsDropEnd
  rw [List.reverse_append]
  rw [List.dropWhile_append_of_pos (by intro x hx; exact hb x (by simpa using hx))]
  rcases ha with rfl | ha
  · simp
  · cases hrev : a.reverse with
    | nil =>
        rw [List.reverse_eq_nil_iff] at hrev
        rw [hrev]
        simp
    | cons x xs =>
        have hane : a ≠ [] := by
          intro hcon
          rw [hcon] at hrev
          simp at hrev
        have hx : x = byteAt a (a.length - 1) := by
          have h1 : a = xs.reverse ++ [x] := by
            have := congrArg List.reverse hrev
            simpa using this
          rw [h1, byteAt_eq_getElem]
          rw [List.getElem?_append_right (by simp)]
          simp
        rw [List.dropWhile_cons, if_neg (by rw [hx, ha]; simp)]
        rw [← hrev]
        simp

theorem wsDropEnd_last (l : List Nat) :
    wsDropEnd l = [] ∨
    isspaceB (byteAt (wsDropEnd l) ((wsDropEnd l).length - 1)) = false := by
  unfold wsDropEnd
  cases hdw : l.reverse.dropWhile isspaceB with
  | nil => exact Or.inl (by simp)
  | cons x xs =>
      refine Or.inr ?_
      have hx : isspaceB x = false := by
        have := List.head?_dropWhile_not isspaceB l.reverse
        rw [hdw] at this
        simpa using this
      rw [byteAt_eq_getElem]
      rw [List.getElem?_reverse (by simp)]
      rw [show (x :: xs).length - 1 - ((x :: xs).reverse.length - 1) = 0 from by
        simp]
      simpa using hx

theorem content_length (s : Str) (hw : Wf s) : (content s).length = s.length := by
  obtain ⟨hd, hl, -⟩ := hw
  simp [content]
  omega

theorem str_ltrim_content (s : Str) (hw : Wf s) :
    content (str_ltrim s) = wsDropStart (content s) := by
  obtain ⟨hd, hl, h0⟩ := hw
  unfold str_ltrim
  split
  · rename_i hz
    unfold wsDropStart content
    rw [hz]
    simp
  · rename_i hne
    have hstart := scanWs_spec s.data s.length (by omega)
    have hs1 := scanWsGo_ge s.data (s.length - 0) 0
    have hs2 := scanWs_le s.data s.length 0 (by omega)
    set start := scanWs s.data s.length 0 with hstartdef
    have hsrc : (extractBytes s.data start (s.length - start)).length = s.length - start :=
      extractBytes_length_of_le _ _ _ (by omega)
    show ((writeBytes s.data 0 (extractBytes s.data start (s.length - start))).set
      (s.length - start) 0).take (s.length - start) = wsDropStart (content s)
    rw [take_set_of_le _ _ _ _ (le_refl _)]
    rw [writeBytes_eq _ _ _ (by omega)]
    simp only [List.take_zero, List.nil_append, Nat.zero_add]
    rw [List.take_left' hsrc]
    unfold wsDropStart
    rw [dropWhile_eq_drop_len]
    unfold content
    rw [← hstart, List.drop_take]
    rfl

theorem str_rtrim_content_nonws (s : Str) (hw : Wf s)
    (hex : ∃ j, j < s.length ∧ isspaceB (byteAt s.data j) = false) :
    content (str_rtrim s) = wsDropEnd (content s) := by
  obtain ⟨hd, hl, h0⟩ := hw
  obtain ⟨j0, hj0, hj0ws⟩ := hex
  unfold str_rtrim
  split
  · omega
  · rename_i hne
    obtain ⟨hall, hlast⟩ := scanWsRevZ_spec s.data (s.length - 1)
    have hle := scanWsRevZ_le s.data (s.length - 1)
    set r := scanWsRevZ s.data (s.length - 1) with hrdef
    have hrws : isspaceB (byteAt s.data r) = false := by
      rcases hlast with hr0 | hx
      · rcases Nat.eq_zero_or_pos j0 with hj | hj
        · rw [hr0, ← hj]
          exact hj0ws
        · by_contra hcon
          have := hall j0 (by omega) (by omega)
          rw [this] at hj0ws
          exact absurd hj0ws (by simp)
      · exact hx
    show ((s.data.set (r + 1) 0).take (r + 1)) = wsDropEnd (content s)
    rw [take_set_of_le _ _ _ _ (le_refl _)]
    have hcsplit : content s = (content s).take (r + 1) ++ (content s).drop (r + 1) :=
      (List.take_append_drop _ _).symm
    rw [hcsplit, wsDropEnd_append]
    · unfold content
      rw [List.take_take]
      congr 1
      omega
    · intro x hx
      obtain ⟨k, hk, hxk⟩ := List.getElem_of_mem hx
      have hklen : r + 1 + k < s.length := by
        have := hk
        simp only [List.length_drop] at this
        have hcl : (content s).length = s.length := by simp [content]; omega
        omega
      have hxk2 : (List.drop (r + 1) (content s))[k]? = some x := by
        rw [List.getElem?_eq_getElem hk, hxk]
      rw [List.getElem?_drop] at hxk2
      unfold content at hxk2
      rw [List.getElem?_take_of_lt (by omega)] at hxk2
      have : x = byteAt s.data (r + 1 + k) := by
        rw [byteAt_eq_getElem, hxk2]
        rfl
      rw [this]
      exact hall (r + 1 + k) (by omega) (by omega)
    · refine Or.inr ?_
      have htl : ((content s).take (r + 1)).length = r + 1 := by
        have hcl : (content s).length = s.length := by simp [content]; omega
        simp
        omega
      rw [htl]
      simp only [Nat.add_sub_cancel]
      rw [byteAt_take _ _ _ (by omega)]
      unfold content
      rw [byteAt_take _ _ _ (by omega)]
      exact hrws

theorem str_rtrim_content_allws (s : Str) (hw : Wf s) (hne : s.length ≠ 0)
    (hall : ∀ j, j < s.length → isspaceB (byteAt s.data j) = true) :
    (str_rtrim s).length = 1 ∧ content (str_rtrim s) = (content s).take 1 := by
  obtain ⟨hd, hl, h0⟩ := hw
  unfold str_rtrim
  rw [if_neg hne]
  obtain ⟨hallr, hlast⟩ := scanWsRevZ_spec s.data (s.length - 1)
  have hle := scanWsRevZ_le s.data (s.length - 1)
  set r := scanWsRevZ s.data (s.length - 1) with hrdef
  have hr0 : r = 0 := by
    rcases hlast with h | h
    · exact h
    · exact absurd (hall r (by omega)) (by simp [h])
  constructor
  · show r + 1 = 1
    omega
  · show ((s.data.set (r + 1) 0).take (r + 1)) = (content s).take 1
    rw [take_set_of_le _ _ _ _ (le_refl _), hr0]
    unfold content
    rw [List.take_take]
    congr 1
    omega

theorem str_trim_content (s : Str) (hW : s.length < W64) (hw : Wf s) :
    content (str_trim s) = wsDropEnd (wsDropStart (content s)) := by
  obtain ⟨hd, hl, h0⟩ := hw
  unfold str_trim
  split
  · rename_i hz
    unfold content wsDropStart wsDropEnd
    rw [hz]
    simp
  · rename_i hne
    have hstart := scanWs_spec s.data s.length (by omega)
    have hs1 := scanWsGo_ge s.data (s.length - 0) 0
    have hs2 := scanWs_le s.data s.length 0 (by omega)
    set start := scanWs s.data s.length 0 with hstartdef
    obtain ⟨hall, hlast⟩ := scanWsRevFrom_spec s.data start (s.length - 1)
    have hele := scanWsRevFrom_le s.data start (s.length - 1)
    set e := scanWsRevFrom s.data start (s.length - 1) with hedef
    have hclen : (content s).length = s.length := by simp [content]; omega
    have hdropm : wsDropStart (content s) = extractBytes s.data start (s.length - start) := by
      unfold wsDropStart content
      rw [dropWhile_eq_drop_len, ← hstart, List.drop_take]
      rfl
    rcases Nat.lt_or_ge (s.length - 1) start with hcase | hcase
    · -- all-whitespace content: start = length, newLen wraps to 0
      have hstarteq : start = s.length := by omega
      have heeq : e = s.length - 1 := by
        rw [hedef, hstarteq]
        exact scanWsRevFrom_of_lt _ _ _ (by omega)
      have hnl : szAdd (szSub e start) 1 = 0 := by
        rw [heeq, hstarteq]
        exact szSub_wrap _ _ (by omega) (by omega)
      show ((writeBytes s.data 0 (extractBytes s.data start (szAdd (szSub e start) 1))).set
        (szAdd (szSub e start) 1) 0).take (szAdd (szSub e start) 1) = _
      rw [hnl]
      rw [hdropm, hstarteq]
      have : extractBytes s.data s.length (s.length - s.length) = [] := by
        unfold extractBytes
        simp
      rw [this]
      unfold wsDropEnd
      simp
    · have hge : start ≤ e := scanWsRevFrom_ge s.data start (s.length - 1) hcase
      have hnl : szAdd (szSub e start) 1 = e - start + 1 := by
        rw [szSub_eq _ _ (by omega) (by omega), szAdd_eq _ _ (by omega)]
      have hsrc : (extractBytes s.data start (e - start + 1)).length = e - start + 1 :=
        extractBytes_length_of_le _ _ _ (by omega)
      have hmlen : (extractBytes s.data start (s.length - start)).length
          = s.length - start :=
        extractBytes_length_of_le _ _ _ (by omega)
      have hstart2 : start = (List.takeWhile isspaceB (content s)).length := hstart
      have hews : isspaceB (byteAt s.data e) = false := by
        rcases hlast with hle2 | hx
        · have heeq : e = start := by omega
          rw [heeq]
          have hbdy := takeWhile_boundary isspaceB (content s) (by rw [hclen]; omega)
          rw [← hstart2] at hbdy
          unfold content at hbdy
          rw [byteAt_take _ _ _ (by omega)] at hbdy
          exact hbdy
        · exact hx
      show ((writeBytes s.data 0 (extractBytes s.data start (szAdd (szSub e start) 1))).set
        (szAdd (szSub e start) 1) 0).take (szAdd (szSub e start) 1) = _
      rw [hnl, take_set_of_le _ _ _ _ (le_refl _)]
      rw [writeBytes_eq _ _ _ (by omega)]
      simp only [List.take_zero, List.nil_append, Nat.zero_add]
      rw [List.take_left' hsrc]
      rw [hdropm]
      have hsplit : extractBytes s.data start (s.length - start)
          = extractBytes s.data start (e - start + 1) ++
            (extractBytes s.data start (s.length - start)).drop (e - start + 1) := by
        have h1 : (extractBytes s.data start (s.length - start)).take (e - start + 1)
            = extractBytes s.data start (e - start + 1) := by
          unfold extractBytes
          rw [List.take_take]
          congr 1
          omega
        rw [← h1, List.take_append_drop]
      rw [hsplit, wsDropEnd_append]
      · intro x hx
        obtain ⟨k, hk, hxk⟩ := List.getElem_of_mem hx
        have hkb : k < s.length - e - 1 := by
          rw [List.length_drop, hmlen] at hk
          omega
        have hxk2 : ((extractBytes s.data start (s.length - start)).drop (e - start + 1))[k]?
            = some x := by
          rw [List.getElem?_eq_getElem hk, hxk]
        rw [List.getElem?_drop] at hxk2
        unfold extractBytes at hxk2
        rw [List.getElem?_take_of_lt (by omega), List.getElem?_drop] at hxk2
        have hxval : x = byteAt s.data (start + (e - start + 1 + k)) := by
          rw [byteAt_eq_getElem, hxk2]
          rfl
        rw [hxval]
        rw [show start + (e - start + 1 + k) = e + 1 + k by omega]
        exact hall (e + 1 + k) (by omega) (by omega)
      · refine Or.inr ?_
        rw [hsrc]
        simp only [Nat.add_sub_cancel]
        rw [extractBytes_byteAt _ _ _ _ (by omega)]
        rw [show start + (e - start) = e by omega]
        exact hews

/-- C6 (amended): on a well-formed buffer `str_ltrim` removes exactly
the leading whitespace run and `str_trim` removes both runs (so after
`str_trim` the last byte is not whitespace unless the result is empty);
all three are no-ops on an empty buffer.  `str_rtrim`, however, removes
the trailing whitespace run only when some byte of the content is not
whitespace; on a non-empty all-whitespace buffer its `end > 0` guard
stops one byte short, leaving a single whitespace byte (length 1)
instead of an empty buffer.  (`str_trim`'s wrap-around length
arithmetic assumes `length < 2^64`, as in C.) -/
theorem C6_trim_family :
    (∀ s : Str, s.length = 0 → str_trim s = s ∧ str_ltrim s = s ∧ str_rtrim s = s) ∧
    (∀ s, Wf s → content (str_ltrim s) = wsDropStart (content s)) ∧
    (∀ s, Wf s → s.length < W64 →
      content (str_trim s) = wsDropEnd (wsDropStart (content s))) ∧
    (∀ l : List Nat, wsDropEnd l = [] ∨
      isspaceB (byteAt (wsDropEnd l) ((wsDropEnd l).length - 1)) = false) ∧
    (∀ s, Wf s → (∃ j, j < s.length ∧ isspaceB (byteAt s.data j) = false) →
      content (str_rtrim s) = wsDropEnd (content s)) ∧
    (∀ s, Wf s → s.length ≠ 0 → (∀ j, j < s.length → isspaceB (byteAt s.data j) = true) →
      (str_rtrim s).length = 1 ∧ content (str_rtrim s) = (content s).take 1) := by
  refine ⟨?_, str_ltrim_content, fun s hw hW => str_trim_content s hW hw, wsDropEnd_last,
    str_rtrim_content_nonws, str_rtrim_content_allws⟩
  intro s hz
  refine ⟨?_, ?_, ?_⟩
  · unfold str_trim
    rw [if_pos hz]
  · unfold str_ltrim
    rw [if_pos hz]
  · unfold str_rtrim
    rw [if_pos hz]

/-- Counterexample to C6 as stated: a well-formed one-byte buffer
holding a single space is unchanged by `str_rtrim` — its last byte is
the whitespace byte 32 although the buffer is not empty. -/
theorem C6_counterexample :
    Wf ⟨1, 16, [32, 0, 0, 0, 0, 0, 0, 0, 0, 0, 0, 0, 0, 0, 0, 0]⟩ ∧
    str_rtrim ⟨1, 16, [32, 0, 0, 0, 0, 0, 0, 0, 0, 0, 0, 0, 0, 0, 0, 0]⟩ =
      ⟨1, 16, [32, 0, 0, 0, 0, 0, 0, 0, 0, 0, 0, 0, 0, 0, 0, 0]⟩ ∧
    (str_rtrim ⟨1, 16, [32, 0, 0, 0, 0, 0, 0, 0, 0, 0, 0, 0, 0, 0, 0, 0]⟩).length = 1 ∧
    isspaceB (byteAt (str_rtrim
      ⟨1, 16, [32, 0, 0, 0, 0, 0, 0, 0, 0, 0, 0, 0, 0, 0, 0, 0]⟩).data 0) = true := by
  refine ⟨by decide, by decide, by decide, by decide⟩

/-- Witness for C6: the trim and rtrim conjuncts applied to the
concrete well-formed buffer " a " (and rtrim's all-whitespace case to
" "). -/
theorem C6_witness :
    content (str_trim ⟨3, 16, [32, 97, 32, 0, 0, 0, 0, 0, 0, 0, 0, 0, 0, 0, 0, 0]⟩) =
      wsDropEnd (wsDropStart
        (content ⟨3, 16, [32, 97, 32, 0, 0, 0, 0, 0, 0, 0, 0, 0, 0, 0, 0, 0]⟩)) ∧
    content (str_rtrim ⟨3, 16, [32, 97, 32, 0, 0, 0, 0, 0, 0, 0, 0, 0, 0, 0, 0, 0]⟩) =
      wsDropEnd (content ⟨3, 16, [32, 97, 32, 0, 0, 0, 0, 0, 0, 0, 0, 0, 0, 0, 0, 0]⟩) ∧
    (str_rtrim ⟨1, 16, [32, 0, 0, 0, 0, 0, 0, 0, 0, 0, 0, 0, 0, 0, 0, 0]⟩).length = 1 :=
  ⟨C6_trim_family.2.2.1 ⟨3, 16, [32, 97, 32, 0, 0, 0, 0, 0, 0, 0, 0, 0, 0, 0, 0, 0]⟩
      (by decide) (by decide),
    C6_trim_family.2.2.2.2.1 ⟨3, 16, [32, 97, 32, 0, 0, 0, 0, 0, 0, 0, 0, 0, 0, 0, 0, 0]⟩
      (by decide) ⟨1, by decide, by decide⟩,
    (C6_trim_family.2.2.2.2.2 ⟨1, 16, [32, 0, 0, 0, 0, 0, 0, 0, 0, 0, 0, 0, 0, 0, 0, 0]⟩
      (by decide) (by decide) (by decide)).1⟩

theorem cstr_take (l : List Nat) : cstr l = l.take (cstr l).length := by
  induction l with
  | nil => rfl
  | cons a t ih =>
      unfold cstr at ih ⊢
      rw [List.takeWhile_cons]
      by_cases ha : a = 0
      · rw [if_neg (by simp [ha])]
        rfl
      · rw [if_pos (by simpa using ha)]
        simp only [List.length_cons, List.take_succ_cons]
        rw [← ih]

theorem strFindAux_cstr_match (delim rest : List Nat) (i : Nat)
    (hfind : strFindAux delim (cstr rest) = some i) :
    extractBytes rest i delim.length = delim ∧ i + delim.length ≤ (cstr rest).length := by
  obtain ⟨hpre, hbound⟩ := strFindAux_some delim _ _ hfind
  have htk := isPrefixOf_take delim _ hpre
  have hct : cstr rest = rest.take ((cstr rest).length) := cstr_take rest
  have hdrop : (cstr rest).drop i = (rest.drop i).take ((cstr rest).length - i) := by
    conv_lhs => rw [hct]
    rw [List.drop_take]
  rw [hdrop, List.take_take] at htk
  rw [show min delim.length ((cstr rest).length - i) = delim.length from by omega] at htk
  exact ⟨htk, hbound⟩

theorem joinWith_cons (d a : List Nat) (segs : List (List Nat)) (h : segs ≠ []) :
    joinWith d (a :: segs) = a ++ d ++ joinWith d segs := by
  cases segs with
  | nil => exact absurd rfl h
  | cons b t => rfl

theorem splitLoop_join (delim : List Nat) (hne : delim ≠ []) :
    ∀ fuel rest restLen, rest.length < fuel → restLen < rest.length →
      byteAt rest restLen = 0 →
      ∃ segs, splitLoop delim fuel rest restLen = some segs ∧ segs ≠ [] ∧
        joinWith delim segs = rest.take restLen ∧
        (segs.map List.length).sum + (segs.length - 1) * delim.length = restLen := by
  have hdl : 0 < delim.length := by
    cases delim with
    | nil => exact absurd rfl hne
    | cons a t => simp
  intro fuel
  induction fuel with
  | zero => intro rest restLen hf; omega
  | succ f ih =>
      intro rest restLen hf hlt h0
      rw [splitLoop]
      cases hfind : strFindAux delim (cstr rest) with
      | none =>
          refine ⟨[rest.take restLen], rfl, by simp, rfl, ?_⟩
          simp
          omega
      | some i =>
          obtain ⟨hmatch, hbound⟩ := strFindAux_cstr_match delim rest i hfind
          have hcle : (cstr rest).length ≤ restLen :=
            cstr_length_le_of_zero rest restLen hlt h0
          have hidl : i + delim.length ≤ restLen := by omega
          have hrest' : (rest.drop (i + delim.length)).length
              = rest.length - (i + delim.length) := by simp
          obtain ⟨segs', hrec, hne', hjoin', hsum'⟩ := ih (rest.drop (i + delim.length))
            (restLen - (i + delim.length)) (by simp; omega) (by simp; omega)
            (by rw [byteAt_drop]; rw [show i + delim.length +
              (restLen - (i + delim.length)) = restLen by omega]; exact h0)
          dsimp only
          rw [hrec]
          refine ⟨rest.take i :: segs', rfl, by simp, ?_, ?_⟩
          · rw [joinWith_cons _ _ _ hne', hjoin']
            have h1 : List.take restLen rest = List.take i rest ++
                List.take (delim.length + (restLen - (i + delim.length)))
                  (List.drop i rest) := by
              rw [← List.take_add]
              congr 1
              omega
            have h2 : List.take (delim.length + (restLen - (i + delim.length)))
                (List.drop i rest) = List.take delim.length (List.drop i rest) ++
                List.take (restLen - (i + delim.length))
                  (List.drop (i + delim.length) rest) := by
              rw [List.take_add, List.drop_drop]
            rw [h1, h2,
              show List.take delim.length (List.drop i rest) = delim from hmatch]
            simp [List.append_assoc]
          · simp only [List.map_cons, List.sum_cons, List.length_cons]
            have hlseg : segs'.length ≥ 1 := by
              cases segs' with
              | nil => exact absurd rfl hne'
              | cons x t => simp
            have htki : (rest.take i).length = i := by simp; omega
            rw [htki]
            rw [show (segs'.length + 1 - 1) = (segs'.length - 1) + 1 by omega]
            rw [Nat.add_mul, Nat.one_mul]
            omega

theorem joinWith_length (d : List Nat) : ∀ segs : List (List Nat), segs ≠ [] →
    (joinWith d segs).length = (segs.map List.length).sum + (segs.length - 1) * d.length := by
  intro segs
  induction segs with
  | nil => intro h; exact absurd rfl h
  | cons a t ih =>
      intro _
      cases t with
      | nil => simp [joinWith]
      | cons b u =>
          rw [joinWith_cons _ _ _ (by simp)]
          rw [List.length_append, List.length_append, ih (by simp)]
          simp only [List.map_cons, List.sum_cons, List.length_cons, Nat.add_sub_cancel]
          rw [Nat.add_mul, Nat.one_mul]
          omega

/-- C4: splitting a well-formed buffer on a non-empty delimiter (the
split always ends with a final, possibly empty, trailing segment) and
joining the segments with the same delimiter reproduces the buffer's
length and content exactly. -/
theorem C4_split_join_roundtrip (s : Str) (d : List Nat) (hw : Wf s) (hne : d ≠ []) :
    ∃ segs r, str_split s d = some segs ∧ segs ≠ [] ∧ str_join segs d = some r ∧
      r.length = s.length ∧ content r = content s := by
  obtain ⟨hd, hl, h0⟩ := hw
  obtain ⟨segl, hrec, hnel, hjoin, hsum⟩ := splitLoop_join d hne (s.data.length + 1)
    s.data s.length (by omega) (by omega) h0
  have hmapne : segl.map mkSeg ≠ [] := by
    cases segl with
    | nil => exact absurd rfl hnel
    | cons a t => simp
  have hlens : ((segl.map mkSeg).map Str.length) = segl.map List.length := by
    rw [List.map_map]
    refine List.map_congr_left ?_
    intro c _
    exact (mkSeg_fields c).1
  have hcnts : ((segl.map mkSeg).map (fun t => t.data.take t.length)) = segl := by
    rw [List.map_map]
    have : ∀ c ∈ segl, ((fun t : Str => t.data.take t.length) ∘ mkSeg) c = c := by
      intro c _
      exact mkSeg_content c
    rw [List.map_congr_left this]
    simp
  have htot : ((segl.map mkSeg).map Str.length).sum +
      ((segl.map mkSeg).length - 1) * d.length = s.length := by
    rw [hlens, List.length_map]
    exact hsum
  have hcntlen : (joinWith d segl).length = s.length := by
    rw [joinWith_length d segl hnel]
    exact hsum
  refine ⟨segl.map mkSeg,
    ⟨((segl.map mkSeg).map Str.length).sum + ((segl.map mkSeg).length - 1) * d.length,
      (str_new (((segl.map mkSeg).map Str.length).sum +
        ((segl.map mkSeg).length - 1) * d.length + 1)).capacity,
      (writeBytes (str_new (((segl.map mkSeg).map Str.length).sum +
        ((segl.map mkSeg).length - 1) * d.length + 1)).data 0
        (joinWith d ((segl.map mkSeg).map (fun t => t.data.take t.length)))).set
        (joinWith d ((segl.map mkSeg).map (fun t => t.data.take t.length))).length 0⟩,
    ?_, hmapne, ?_, ?_, ?_⟩
  · unfold str_split
    rw [hrec]
  · unfold str_join
    rw [if_neg (by simpa using hmapne)]
  · show ((segl.map mkSeg).map Str.length).sum +
      ((segl.map mkSeg).length - 1) * d.length = s.length
    exact htot
  · show ((writeBytes (str_new (((segl.map mkSeg).map Str.length).sum +
        ((segl.map mkSeg).length - 1) * d.length + 1)).data 0
        (joinWith d ((segl.map mkSeg).map (fun t => t.data.take t.length)))).set
        (joinWith d ((segl.map mkSeg).map (fun t => t.data.take t.length))).length
        0).take (((segl.map mkSeg).map Str.length).sum +
        ((segl.map mkSeg).length - 1) * d.length) = content s
    rw [hcnts, htot]
    have hge := str_round_capacity_ge (s.length + 1)
    have hnew : (str_new (s.length + 1)).data.length = str_round_capacity (s.length + 1) := by
      rw [str_new_data]
      simp
    rw [take_set_of_le _ _ _ _ (by omega)]
    rw [writeBytes_eq _ _ _ (by rw [hnew]; omega)]
    simp only [List.take_zero, List.nil_append, Nat.zero_add]
    rw [List.take_left' hcntlen]
    rw [hjoin]
    rfl

/-- Witness for C4 at the concrete well-formed buffer "a,b" split on
",". -/
theorem C4_witness :
    ∃ segs r, str_split ⟨3, 16, [97, 44, 98, 0, 0, 0, 0, 0, 0, 0, 0, 0, 0, 0, 0, 0]⟩
        [44] = some segs ∧ segs ≠ [] ∧ str_join segs [44] = some r ∧
      r.length = (⟨3, 16, [97, 44, 98, 0, 0, 0, 0, 0, 0, 0, 0, 0, 0, 0, 0, 0]⟩ : Str).length ∧
      content r = content ⟨3, 16, [97, 44, 98, 0, 0, 0, 0, 0, 0, 0, 0, 0, 0, 0, 0, 0]⟩ :=
  C4_split_join_roundtrip ⟨3, 16, [97, 44, 98, 0, 0, 0, 0, 0, 0, 0, 0, 0, 0, 0, 0, 0]⟩
    [44] (by decide) (by decide)

/-- Specification-side count of the non-overlapping, leftmost-first
occurrences of `old` in a byte list (scanning left to right).  For a
non-empty `old` the recursion argument `t.drop (old.length - 1)` is the
list after the matched occurrence. -/
def countOccSpec (old : List Nat) : List Nat → Nat
  | [] => 0
  | c :: t =>
      if old.isPrefixOf (c :: t) then 1 + countOccSpec old (t.drop (old.length - 1))
      else countOccSpec old t
termination_by l => l.length
decreasing_by
  · simp
    have := List.length_drop (old.length - 1) t
    omega
  · simp

/-- Specification-side substitution of every non-overlapping,
leftmost-first occurrence of `old` by `new`. -/
def substAllSpec (old new : List Nat) : List Nat → List Nat
  | [] => []
  | c :: t =>
      if old.isPrefixOf (c :: t) then
        new ++ substAllSpec old new (t.drop (old.length - 1))
      else c :: substAllSpec old new t
termination_by l => l.length
decreasing_by
  · simp
    have := List.length_drop (old.length - 1) t
    omega
  · simp

theorem isPrefixOf_cstr (old : List Nat) (hz : ∀ x ∈ old, x ≠ 0) :
    ∀ rest, old.isPrefixOf (cstr rest) = old.isPrefixOf rest := by
  induction old with
  | nil => intro rest; simp [List.isPrefixOf]
  | cons x o' ih =>
      intro rest
      have hx : x ≠ 0 := hz x (by simp)
      cases rest with
      | nil => rfl
      | cons c t =>
          unfold cstr
          rw [List.takeWhile_cons]
          by_cases hc : c = 0
          · rw [if_neg (by simp [hc])]
            simp only [List.isPrefixOf_cons₂, List.isPrefixOf]
            rw [show (x == c) = false from by simp [hx, hc]]
            simp
          · rw [if_pos (by simpa using hc)]
            simp only [List.isPrefixOf_cons₂]
            rw [show List.takeWhile (fun b => b != 0) t = cstr t from rfl]
            rw [ih (fun y hy => hz y (by simp [hy]))]

theorem cstr_drop_of_nonzero : ∀ (k : Nat) (rest : List Nat), k ≤ rest.length →
    (∀ j, j < k → byteAt rest j ≠ 0) →
    cstr (rest.drop k) = (cstr rest).drop k := by
  intro k
  induction k with
  | zero => intro rest _ _; simp
  | succ m ih =>
      intro rest hk hnz
      cases rest with
      | nil => simp at hk
      | cons c t =>
          have hc : c ≠ 0 := by
            have := hnz 0 (by omega)
            simpa [byteAt] using this
          simp only [List.drop_succ_cons]
          rw [ih t (by simpa using hk) (fun j hj => by
            have := hnz (j + 1) (by omega)
            simpa [byteAt] using this)]
          unfold cstr
          rw [List.takeWhile_cons, if_pos (by simpa using hc)]
          simp

theorem replaceEmitLoop_spec (old new : List Nat) (hne : old ≠ [])
    (hz : ∀ x ∈ old, x ≠ 0) :
    ∀ fuel rest, rest.length < fuel →
      replaceEmitLoop old new fuel rest = some (substAllSpec old new (cstr rest)) := by
  have hol : 0 < old.length := by
    cases old with
    | nil => exact absurd rfl hne
    | cons a t => simp
  intro fuel
  induction fuel with
  | zero => intro rest hf; omega
  | succ f ih =>
      intro rest hf
      rw [replaceEmitLoop]
      cases rest with
      | nil =>
          rw [if_pos (show byteAt ([] : List Nat) 0 = 0 from rfl)]
          simp [cstr, substAllSpec]
      | cons c t =>
          by_cases hc : c = 0
          · rw [if_pos (by simpa [byteAt] using hc)]
            unfold cstr
            rw [List.takeWhile_cons, if_neg (by simp [hc])]
            simp [substAllSpec]
          · rw [if_neg (by simpa [byteAt] using hc)]
            have hcs : cstr (c :: t) = c :: cstr t := by
              unfold cstr
              rw [List.takeWhile_cons, if_pos (by simpa using hc)]
            by_cases hp : old.isPrefixOf (c :: t) = true
            · rw [if_pos hp]
              have hpl := isPrefixOf_length_le old _ hp
              have htake := isPrefixOf_take old _ hp
              have hnzpre : ∀ j, j < old.length → byteAt (c :: t) j ≠ 0 := by
                intro j hj
                have : byteAt (c :: t) j = byteAt old j := by
                  rw [← htake, byteAt_take _ _ _ hj]
                rw [this]
                have hjlt : j < old.length := hj
                rw [byteAt, List.getD_eq_getElem _ _ (by omega)]
                exact hz _ (by exact List.getElem_mem _)
              rw [ih (List.drop old.length (c :: t)) (by
                simp only [List.length_drop, List.length_cons]
                simp only [List.length_cons] at hf
                omega)]
              have hdrop := cstr_drop_of_nonzero old.length (c :: t) (by omega) hnzpre
              rw [hdrop]
              have hsubst : substAllSpec old new (cstr (c :: t)) =
                  new ++ substAllSpec old new ((cstr (c :: t)).drop old.length) := by
                rw [hcs]
                rw [substAllSpec]
                rw [if_pos (by rw [← hcs, isPrefixOf_cstr old hz]; exact hp)]
                have hde : (c :: cstr t).drop old.length = (cstr t).drop (old.length - 1) := by
                  cases hoc : old.length with
                  | zero => omega
                  | succ m => simp
                rw [hde]
              rw [hsubst, hcs]
              rfl
            · rw [if_neg hp]
              simp only [List.tail_cons]
              rw [ih t (by simp only [List.length_cons] at hf; omega)]
              rw [hcs]
              rw [substAllSpec]
              rw [if_neg (by rw [← hcs, isPrefixOf_cstr old hz]; exact hp)]
              rfl

theorem mul_sub_nat (a b c : Nat) : a * (b - c) = a * b - a * c := by
  rw [Nat.mul_comm a (b - c), Nat.sub_mul, Nat.mul_comm b a, Nat.mul_comm c a]

theorem countOccSpec_of_none (old : List Nat) :
    ∀ hay, strFindAux old hay = none → countOccSpec old hay = 0 := by
  intro hay
  induction hay with
  | nil => intro _; rw [countOccSpec]
  | cons c t ih =>
      intro h
      rw [strFindAux] at h
      by_cases hp : old.isPrefixOf (c :: t) = true
      · rw [if_pos hp] at h
        exact absurd h (by simp)
      · rw [if_neg hp] at h
        rw [countOccSpec, if_neg hp]
        refine ih ?_
        cases hE : strFindAux old t with
        | none => rfl
        | some j => rw [hE] at h; simp at h

theorem countOccSpec_of_some (old : List Nat) (hne : old ≠ []) :
    ∀ hay i, strFindAux old hay = some i →
      countOccSpec old hay = 1 + countOccSpec old (hay.drop (i + old.length)) := by
  have hol : 0 < old.length := List.length_pos.mpr hne
  intro hay
  induction hay with
  | nil =>
      intro i h
      rw [strFindAux] at h
      rw [if_neg ?_] at h
      · exact absurd h (by simp)
      · intro hcontra
        have hle := isPrefixOf_length_le old [] hcontra
        simp only [List.length_nil, Nat.le_zero] at hle
        omega
  | cons c t ih =>
      intro i h
      rw [strFindAux] at h
      by_cases hp : old.isPrefixOf (c :: t) = true
      · rw [if_pos hp] at h
        injection h with hi
        subst hi
        rw [countOccSpec, if_pos hp]
        have hd : (c :: t).drop (0 + old.length) = t.drop (old.length - 1) := by
          cases ho : old.length with
          | zero => omega
          | succ m => simp
        rw [hd]
      · rw [if_neg hp] at h
        cases hE : strFindAux old t with
        | none => rw [hE] at h; simp at h
        | some j =>
            rw [hE] at h
            simp only [Option.map_some'] at h
            injection h with hi
            subst hi
            rw [countOccSpec, if_neg hp]
            rw [ih j hE]
            have hd : (c :: t).drop (j + 1 + old.length) = t.drop (j + old.length) := by
              rw [show j + 1 + old.length = (j + old.length) + 1 from by omega]
              simp
            rw [hd]

theorem countOccLoop_spec (old : List Nat) (hne : old ≠ []) :
    ∀ fuel hay, hay.length < fuel →
      countOccLoop old fuel hay = some (countOccSpec old hay) := by
  have hol : 0 < old.length := List.length_pos.mpr hne
  intro fuel
  induction fuel with
  | zero => intro hay hf; omega
  | succ f ih =>
      intro hay hf
      rw [countOccLoop]
      split
      next i hE =>
        have hfact := strFindAux_some old hay i hE
        have hrec := ih (hay.drop (i + old.length)) (by
          rw [List.length_drop]
          have := hfact.2
          omega)
        rw [hrec, countOccSpec_of_some old hne hay i hE]
        simp [Nat.add_comm]
      next hE =>
        rw [countOccSpec_of_none old hay hE]

theorem countOccSpec_mul_le (old : List Nat) (hne : old ≠ []) :
    ∀ n hay, hay.length ≤ n → countOccSpec old hay * old.length ≤ hay.length := by
  have hol : 0 < old.length := List.length_pos.mpr hne
  intro n
  induction n with
  | zero =>
      intro hay hlen
      cases hay with
      | nil => rw [countOccSpec]; simp
      | cons c t => simp at hlen
  | succ m ih =>
      intro hay hlen
      cases hay with
      | nil => rw [countOccSpec]; simp
      | cons c t =>
          by_cases hp : old.isPrefixOf (c :: t) = true
          · rw [countOccSpec, if_pos hp]
            have hpl := isPrefixOf_length_le old _ hp
            have hrec := ih (t.drop (old.length - 1)) (by
              rw [List.length_drop]
              simp only [List.length_cons] at hlen
              omega)
            have hexp : (1 + countOccSpec old (t.drop (old.length - 1))) * old.length
                = old.length + countOccSpec old (t.drop (old.length - 1)) * old.length := by ring
            rw [hexp]
            rw [List.length_drop] at hrec
            simp only [List.length_cons] at hpl ⊢
            omega
          · rw [countOccSpec, if_neg hp]
            have hrec := ih t (by simp only [List.length_cons] at hlen; omega)
            simp only [List.length_cons]
            omega

theorem substAllSpec_length (old new : List Nat) (hne : old ≠ []) :
    ∀ n l, l.length ≤ n →
      (substAllSpec old new l).length + countOccSpec old l * old.length
        = l.length + countOccSpec old l * new.length := by
  have hol : 0 < old.length := List.length_pos.mpr hne
  intro n
  induction n with
  | zero =>
      intro l hlen
      cases l with
      | nil => rw [substAllSpec, countOccSpec]; simp
      | cons c t => simp at hlen
  | succ m ih =>
      intro l hlen
      cases l with
      | nil => rw [substAllSpec, countOccSpec]; simp
      | cons c t =>
          by_cases hp : old.isPrefixOf (c :: t) = true
          · rw [substAllSpec, countOccSpec, if_pos hp, if_pos hp]
            have hpl := isPrefixOf_length_le old _ hp
            have hrec := ih (t.drop (old.length - 1)) (by
              rw [List.length_drop]
              simp only [List.length_cons] at hlen
              omega)
            have e1 : (1 + countOccSpec old (t.drop (old.length - 1))) * old.length
                = old.length + countOccSpec old (t.drop (old.length - 1)) * old.length := by
              ring
            have e2 : (1 + countOccSpec old (t.drop (old.length - 1))) * new.length
                = new.length + countOccSpec old (t.drop (old.length - 1)) * new.length := by
              ring
            rw [e1, e2]
            rw [List.length_drop] at hrec
            simp only [List.length_append, List.length_cons] at hpl hrec ⊢
            omega
          · rw [substAllSpec, countOccSpec, if_neg hp, if_neg hp]
            have hrec := ih t (by simp only [List.length_cons] at hlen; omega)
            simp only [List.length_cons]
            omega

theorem sz_result_eq (slen count oldl newl : Nat)
    (h1 : count * oldl ≤ slen) (h2 : slen + count * newl < W64) :
    szAdd slen (szMul count (szSub newl oldl)) = slen + count * newl - count * oldl := by
  cases count with
  | zero =>
      simp only [Nat.zero_mul, Nat.add_zero, Nat.sub_zero] at h2 ⊢
      unfold szAdd szMul szSub W64
      unfold W64 at h2
      rw [show (2:Nat) ^ 64 = 18446744073709551616 from by norm_num] at h2 ⊢
      omega
  | succ c =>
      have hnew1 : newl ≤ (c + 1) * newl := Nat.le_mul_of_pos_left newl (by omega)
      have hold1 : oldl ≤ (c + 1) * oldl := Nat.le_mul_of_pos_left oldl (by omega)
      unfold szAdd szMul szSub W64
      unfold W64 at h2
      rw [show (2:Nat) ^ 64 = 18446744073709551616 from by norm_num] at h2 ⊢
      have hn : newl % 18446744073709551616 = newl := Nat.mod_eq_of_lt (by omega)
      have ho : oldl % 18446744073709551616 = oldl := Nat.mod_eq_of_lt (by omega)
      rw [hn, ho]
      rcases Nat.lt_or_ge newl oldl with hlt | hle
      · have hPQ : (c + 1) * (newl + 1) ≤ (c + 1) * oldl :=
          Nat.mul_le_mul (Nat.le_refl _) (by omega)
        have hPQ' : (c + 1) * (newl + 1) = (c + 1) * newl + (c + 1) := by ring
        have hY : (newl + (18446744073709551616 - oldl)) % 18446744073709551616
            = 18446744073709551616 - (oldl - newl) := by omega
        rw [hY]
        have hmul1 : (c + 1) * (18446744073709551616 - (oldl - newl))
            = (c + 1) * 18446744073709551616 - (c + 1) * (oldl - newl) := mul_sub_nat _ _ _
        have hmul2 : (c + 1) * (oldl - newl) = (c + 1) * oldl - (c + 1) * newl :=
          mul_sub_nat _ _ _
        have hmul3 : (c + 1) * 18446744073709551616
            = c * 18446744073709551616 + 18446744073709551616 := by ring
        rw [hmul1, hmul2, hmul3]
        omega
      · have hPQ : (c + 1) * oldl ≤ (c + 1) * newl :=
          Nat.mul_le_mul (Nat.le_refl _) hle
        have hY : (newl + (18446744073709551616 - oldl)) % 18446744073709551616
            = newl - oldl := by omega
        rw [hY]
        have hmul : (c + 1) * (newl - oldl) = (c + 1) * newl - (c + 1) * oldl :=
          mul_sub_nat _ _ _
        rw [hmul]
        omega

/-- C5: on a well-formed buffer, for a non-empty NUL-free `old` and any `new`
(the result fitting in `size_t`), `str_replace` and `str_replace_all` return
identical results; the returned buffer starts with the spec-level substitution
of every non-overlapping occurrence of `old` by `new` in the stored C string,
and its recorded length is `len(s) + occurrences * (len(new) - len(old))`. -/
theorem C5_replace_equals_replace_all (s : Str) (old new : List Nat)
    (hw : Wf s) (hne : old ≠ []) (hz : ∀ x ∈ old, x ≠ 0)
    (hsmall : s.length + s.length * new.length < W64) :
    str_replace s old new = str_replace_all s old new ∧
    ∃ r, str_replace s old new = some r ∧
      (r.length : Int) = (s.length : Int)
        + (countOccSpec old (cstr s.data) : Int)
          * ((new.length : Int) - (old.length : Int)) ∧
      r.data.take (substAllSpec old new (cstr s.data)).length
        = substAllSpec old new (cstr s.data) := by
  obtain ⟨hcap, hlt, hz0⟩ := hw
  have hol : 0 < old.length := List.length_pos.mpr hne
  have hdlen : s.length < s.data.length := by omega
  have hhayle : (cstr s.data).length ≤ s.length :=
    cstr_length_le_of_zero s.data s.length hdlen hz0
  set C := countOccSpec old (cstr s.data) with hCdef
  set E := substAllSpec old new (cstr s.data) with hEdef
  set L := szAdd s.length (szMul C (szSub new.length old.length)) with hLdef
  have hcount := countOccLoop_spec old hne (s.data.length + 1) (cstr s.data) (by omega)
  have hemit := replaceEmitLoop_spec old new hne hz (s.data.length + 1) s.data
    (by omega)
  have hmul := countOccSpec_mul_le old hne (cstr s.data).length (cstr s.data)
    (Nat.le_refl _)
  rw [← hCdef] at hmul
  have hcle : C ≤ (cstr s.data).length := by
    have h1 : C * 1 ≤ C * old.length := Nat.mul_le_mul (Nat.le_refl _) hol
    rw [Nat.mul_one] at h1
    omega
  have hcountS : C * new.length ≤ s.length * new.length :=
    Nat.mul_le_mul (by omega) (Nat.le_refl _)
  have hszh2 : s.length + C * new.length < W64 := by omega
  have hszh1 : C * old.length ≤ s.length := by omega
  have hL := sz_result_eq s.length C old.length new.length hszh1 hszh2
  rw [← hLdef] at hL
  have hElen := substAllSpec_length old new hne (cstr s.data).length (cstr s.data)
    (Nat.le_refl _)
  rw [← hEdef, ← hCdef] at hElen
  have hR : str_replace s old new = some
      { length := L, capacity := (str_new (L + 1)).capacity,
        data := (writeBytes (str_new (L + 1)).data 0 E).set E.length 0 } := by
    unfold str_replace
    rw [hcount, hemit]
  refine ⟨rfl, ?_⟩
  refine ⟨_, hR, ?_, ?_⟩
  · show (L : Int) = (s.length : Int)
      + (C : Int) * ((new.length : Int) - (old.length : Int))
    rw [hL]
    have hcast : (C : Int) * ((new.length : Int) - (old.length : Int))
        = ((C * new.length : Nat) : Int) - ((C * old.length : Nat) : Int) := by
      push_cast
      ring
    rw [hcast]
    omega
  · show ((writeBytes (str_new (L + 1)).data 0 E).set E.length 0).take E.length = E
    have hEleL : E.length ≤ L := by
      rw [hL]
      omega
    have hfit : 0 + E.length ≤ (str_new (L + 1)).data.length := by
      have h1 := (str_new_Wf (L + 1)).1
      have h2 := str_round_capacity_ge (max (L + 1) 1)
      have h3 : L + 1 ≤ max (L + 1) 1 := Nat.le_max_left _ _
      rw [str_new_capacity] at h1
      omega
    rw [take_set_of_le _ _ _ _ (Nat.le_refl _), writeBytes_eq _ _ _ hfit]
    simp only [List.take_zero, List.nil_append, Nat.zero_add]
    exact List.take_left' rfl

/-- C5 counterexample: the claim quantifies over every non-null `old`,
including the empty string, but with an empty `old` the occurrence-counting
loop of `str_replace` (and `str_replace_all`) never advances and the call
never returns (divergence marker `none`): no result of the stated length
exists. -/
theorem C5_counterexample :
    str_replace ⟨2, 16, [97, 98, 0, 0, 0, 0, 0, 0, 0, 0, 0, 0, 0, 0, 0, 0]⟩ [] [99]
      = none := by decide

/-- C5 witness: replacing `"l"` by `"L"` in `"hello"`. -/
theorem C5_witness :
    str_replace ⟨5, 16, [104, 101, 108, 108, 111, 0, 0, 0, 0, 0, 0, 0, 0, 0, 0, 0]⟩
        [108] [76]
      = str_replace_all ⟨5, 16, [104, 101, 108, 108, 111, 0, 0, 0, 0, 0, 0, 0, 0, 0, 0, 0]⟩
        [108] [76] ∧
    ∃ r, str_replace ⟨5, 16, [104, 101, 108, 108, 111, 0, 0, 0, 0, 0, 0, 0, 0, 0, 0, 0]⟩
        [108] [76] = some r ∧
      (r.length : Int) = ((5 : Nat) : Int)
        + (countOccSpec [108] (cstr [104, 101, 108, 108, 111, 0, 0, 0, 0, 0, 0, 0, 0, 0, 0, 0]) : Int)
          * (((1 : Nat) : Int) - ((1 : Nat) : Int)) ∧
      r.data.take (substAllSpec [108] [76]
          (cstr [104, 101, 108, 108, 111, 0, 0, 0, 0, 0, 0, 0, 0, 0, 0, 0])).length
        = substAllSpec [108] [76]
            (cstr [104, 101, 108, 108, 111, 0, 0, 0, 0, 0, 0, 0, 0, 0, 0, 0]) :=
  C5_replace_equals_replace_all
    ⟨5, 16, [104, 101, 108, 108, 111, 0, 0, 0, 0, 0, 0, 0, 0, 0, 0, 0]⟩ [108] [76]
    (by decide) (by decide) (by decide) (by decide)
